import Mathlib

/-!
Shallow embedding of `src/sdv/modeler.py` (class `Modeler`): the CPA
(Conditional Parameter Aggregation) algorithm over relational tables.

Tables (pandas DataFrames) are embedded as an explicit index (one label per
row), an optional index name and a list of named columns; every cell is an
`Option Int` where `none` plays the role of a missing value (NaN).  The
metadata/schema provider and the statistical model are the two collaborators
of the source and are embedded as records of functions.  A fitted model is
represented by the data it was fit on, which is all the source ever derives
from it (via `get_parameters`, folded into `ModelClass.getParams`).

Python-level effects are made explicit: fallible dictionary/column lookups
return `Except`, the `models` / `table_sizes` instance dictionaries are
threaded as explicit state, and the unbounded recursion of `cpa` over the
schema's child relation is driven by fuel.
-/

namespace SDV

/-- A cell of a table: a numeric value, or `none` for a missing value (NaN). -/
abbrev Cell := Option Int

/-- Embedding of a pandas DataFrame: an optional index name, the index labels
(one per row) and the named columns, each aligned with the index. -/
structure DF where
  indexName : Option String
  index : List Cell
  cols : List (String × List Cell)
deriving DecidableEq, Repr, Inhabited

/-- Errors surfaced by the embedded code: Python `KeyError` (missing
dictionary key or column), `ValueError` (index length mismatch) and
exhaustion of the recursion fuel. -/
inductive Err where
  | fuelExhausted
  | keyError (key : String)
  | valueError
deriving DecidableEq, Repr

/-- Python dictionary read: first entry with the given key. -/
def dictGet {α : Type} : List (String × α) → String → Option α
  | [], _ => none
  | p :: rest, k => if p.1 = k then some p.2 else dictGet rest k

/-- Python dictionary write: replace the entry in place if the key is
present (keeping its position, as Python dicts do), else append. -/
def dictSet {α : Type} : List (String × α) → String → α → List (String × α)
  | [], k, v => [(k, v)]
  | p :: rest, k, v => if p.1 = k then (k, v) :: rest else p :: dictSet rest k v

/-- Distinct elements in first-occurrence order (pandas `Series.unique`). -/
def dedupFirst {α : Type} [DecidableEq α] : List α → List α
  | [] => []
  | x :: xs => x :: (dedupFirst xs).filter (fun y => decide (y ≠ x))

/-- Turn an optional value into an `Except`, raising `e` when absent. -/
def toExcept {α : Type} (o : Option α) (e : Err) : Except Err α :=
  match o with
  | some a => .ok a
  | none => .error e

namespace DF

/-- `len(df)`: the number of rows. -/
def nRows (df : DF) : Nat := df.index.length

/-- `df.columns`: the column names. -/
def colNames (df : DF) : List String := df.cols.map Prod.fst

/-- `df[c]` as a plain list of cells (the column's values). -/
def getCol (df : DF) (c : String) : Option (List Cell) := dictGet df.cols c

/-- `df[c] = vals` with plain values: replace the column in place if present,
else append it. -/
def setCol (df : DF) (c : String) (vals : List Cell) : DF :=
  { df with cols := dictSet df.cols c vals }

/-- `del df[c]`. -/
def dropCol (df : DF) (c : String) : DF :=
  { df with cols := df.cols.filter (fun p => decide (p.1 ≠ c)) }

/-- Well-formedness: every column is aligned with the index. -/
def WF (df : DF) : Prop := ∀ p ∈ df.cols, p.2.length = df.index.length

/-- `df.set_index(c)`: move column `c` into the index (KeyError if absent). -/
def setIndexCol (df : DF) (c : String) : Except Err DF :=
  match dictGet df.cols c with
  | some vs => .ok { indexName := some c, index := vs,
                     cols := df.cols.filter (fun p => decide (p.1 ≠ c)) }
  | none => .error (.keyError c)

/-- `df.index = Series(vals, name)`: pandas raises `ValueError` when the
length does not match the frame. -/
def setIndexVals (df : DF) (name : String) (vals : List Cell) : Except Err DF :=
  if vals.length = df.nRows then
    .ok { df with index := vals, indexName := some name }
  else
    .error .valueError

/-- The cells of column `vals` at the positions where the aligned index
equals `v`. -/
def filterByIndex (idx vals : List Cell) (v : Cell) : List Cell :=
  ((idx.zip vals).filter (fun q => decide (q.1 = v))).map Prod.snd

/-- `df.loc[[v]]`: the sub-frame of the rows whose index label equals `v`. -/
def locEq (df : DF) (v : Cell) : DF :=
  { indexName := df.indexName
    index := df.index.filter (fun i => decide (i = v))
    cols := df.cols.map (fun p => (p.1, filterByIndex df.index p.2 v)) }

/-- Positions of `idx` holding the label `v`. -/
def matchPositions (idx : List Cell) (v : Cell) : List Nat :=
  (List.range idx.length).filter (fun q => decide (idx.getD q none = v))

/-- Row pairing of a left join on the index: every left position, paired with
each matching right position, or with `none` when there is no match. -/
def joinPairs (lIdx rIdx : List Cell) : List (Nat × Option Nat) :=
  (List.range lIdx.length).flatMap (fun p =>
    let ms := matchPositions rIdx (lIdx.getD p none)
    if ms.isEmpty then [(p, none)] else ms.map (fun q => (p, some q)))

/-- `l.merge(r, how='left', left_index=True, right_index=True)`.  Cells of
right columns are missing on unmatched rows.  (The source never merges
frames with overlapping column names: extension columns are namespaced per
child, so the pandas suffixing logic is not modelled.) -/
def mergeLeftIndex (l r : DF) : DF :=
  let pairs := joinPairs l.index r.index
  { indexName := l.indexName
    index := pairs.map (fun pr => l.index.getD pr.1 none)
    cols :=
      l.cols.map (fun c => (c.1, pairs.map (fun pr => c.2.getD pr.1 none)))
        ++ r.cols.map (fun c =>
            (c.1, pairs.map (fun pr => pr.2.elim none (fun q => c.2.getD q none)))) }

/-- The default `RangeIndex(n)`. -/
def defaultRange (n : Nat) : List Cell := (List.range n).map (fun k => some (Int.ofNat k))

/-- `df.reset_index()`: reinsert the index as the first column (named after
the index, or `"index"` when unnamed) and restore the default range index. -/
def resetIndex (df : DF) : DF :=
  { indexName := none
    index := defaultRange df.nRows
    cols := (df.indexName.getD "index", df.index) :: df.cols }

/-- Value a series `(sIdx, sVals)` contributes at index label `i` under
pandas alignment: the value at the first matching series label, or missing. -/
def alignLookup (sIdx sVals : List Cell) (i : Cell) : Cell :=
  (((sIdx.zip sVals).find? (fun q => decide (q.1 = i))).map Prod.snd).getD none

/-- `df[c] = Series(sVals, index=sIdx)`: index-aligned column assignment. -/
def assignAligned (df : DF) (c : String) (sIdx sVals : List Cell) : DF :=
  df.setCol c (df.index.map (alignLookup sIdx sVals))

end DF

/-- Keys appearing in a list of flat rows, first occurrence first (the column
set of `pd.DataFrame(list_of_series)`; the source never depends on the
relative order of these columns). -/
def unionKeys (rows : List (List (String × Int))) : List String :=
  dedupFirst (rows.flatMap (fun r => r.map Prod.fst))

/-- `pd.DataFrame(rows, index=idx)` from flat rows: one column per key in
use; a row missing a key gets a missing cell. -/
def dfFromRows (rows : List (List (String × Int))) (idx : List Cell) : DF :=
  { indexName := none
    index := idx
    cols := (unionKeys rows).map (fun c => (c, rows.map (fun r => dictGet r c))) }

/-- The metadata/schema collaborator (`sdv.Metadata`), embedded as a record
of the query functions the source consumes. -/
structure Metadata where
  tables : List String
  parents : String → List String
  children : String → List String
  primaryKey : String → Option String
  foreignKey : String → String → String
  loadTable : String → DF
  transform : String → DF → DF

/-- The statistical-model collaborator: constructing a fresh instance with
the configured keyword arguments, fitting it, and reading its flat parameter
dictionary is one pure function from the fitted data. -/
structure ModelClass where
  getParams : DF → List (String × Int)

/-- The mutable state of a `Modeler` instance: the `models` registry (a
fitted model is represented by the data it was fit on), `table_sizes`, and a
ghost event trace recording the order in which models are stored. -/
structure MState where
  models : List (String × DF)
  tableSizes : List (String × Nat)
  log : List String
deriving DecidableEq, Repr, Inhabited

/-- The empty state of a fresh `Modeler`. -/
def st0 : MState := ⟨[], [], []⟩

/-- `'__' + child_name + '__' + key` applied to every key of a flat row
(`row.index = '__' + child_name + '__' + row.index`). -/
def prefixRow (childName : String) (row : List (String × Int)) : List (String × Int) :=
  row.map (fun p => ("__" ++ childName ++ "__" ++ p.1, p.2))

/-- The sub-frame one ephemeral model is fit on inside `_get_extension`: the
child rows of one foreign-key value, with the child's primary key column
dropped when present. -/
def subTableFor (md : Metadata) (childName : String) (ctIndexed : DF) (v : Cell) : DF :=
  let childRows := ctIndexed.locEq v
  match md.primaryKey childName with
  | some pk => if (childRows.getCol pk).isSome then childRows.dropCol pk else childRows
  | none => childRows

/-- One extension row of `_get_extension`: fit a fresh model on the
sub-frame, read its parameters, overwrite/insert `child_rows` with the row
count, and namespace every key with the child's name. -/
def extensionRow (md : Metadata) (mc : ModelClass) (childName : String)
    (ctIndexed : DF) (v : Cell) : List (String × Int) :=
  let sub := subTableFor md childName ctIndexed v
  prefixRow childName (dictSet (mc.getParams sub) "child_rows" (Int.ofNat sub.nRows))

/-- `Modeler._get_extension(child_name, child_table, foreign_key)`. -/
def getExtension (md : Metadata) (mc : ModelClass) (childName : String)
    (childTable : DF) (foreignKey : String) : Except Err DF := do
  let fkVals ← toExcept (childTable.getCol foreignKey) (.keyError foreignKey)
  let fkUnique := dedupFirst fkVals
  let ctIndexed ← childTable.setIndexCol foreignKey
  .ok (dfFromRows (fkUnique.map (extensionRow md mc childName ctIndexed)) fkUnique)

/-- `fillna(0)` on one cell. -/
def fillna0 (c : Cell) : Cell := some (c.getD 0)

/-- Lines 112-114 of `cpa`: left-merge one child's extension into the
working table and fill the missing `__<child>__child_rows` cells with 0
(KeyError when that column is absent, i.e. when the child table was empty). -/
def mergeChildStep (childName : String) (extended extension : DF) : Except Err DF := do
  let merged := extended.mergeLeftIndex extension
  let colName := "__" ++ childName ++ "__child_rows"
  let col ← toExcept (merged.getCol colName) (.keyError colName)
  .ok (merged.setCol colName (col.map fillna0))

/-- The child loop of `cpa` (lines 108-114), parameterised by the recursive
call `rec` (which closes over the `tables` mapping). -/
def cpaChildren (rec : String → Option String → MState → Except Err (DF × MState))
    (md : Metadata) (mc : ModelClass) (parentName : String) :
    List String → DF → MState → Except Err (DF × MState)
  | [], extended, st => .ok (extended, st)
  | childName :: rest, extended, st => do
    let childKey := md.foreignKey parentName childName
    let r ← rec childName (some childKey) st
    let extension ← getExtension md mc childName r.1 childKey
    let extended ← mergeChildStep childName extended extension
    cpaChildren rec md mc parentName rest extended r.2

/-- Step 1 of `cpa`: `tables[table_name]` when the mapping is non-empty
(Python truthiness; `KeyError` when the key is absent), else
`metadata.load_table(table_name)`. -/
def resolveTable (md : Metadata) (tables : List (String × DF)) (t : String) : Except Err DF :=
  if tables.isEmpty then .ok (md.loadTable t)
  else toExcept (dictGet tables t) (.keyError t)

/-- `Modeler.cpa(table_name, tables, foreign_key)`, driven by fuel (the
source recurses unboundedly over `metadata.get_children`). -/
def cpa (md : Metadata) (mc : ModelClass) :
    Nat → String → List (String × DF) → Option String → MState →
      Except Err (DF × MState)
  | 0, _, _, _, _ => .error .fuelExhausted
  | fuel + 1, tableName, tables, foreignKey, st => do
    let table ← resolveTable md tables tableName
    let st1 : MState :=
      { st with tableSizes := dictSet st.tableSizes tableName table.nRows }
    let extended := md.transform tableName table
    let primaryKey := md.primaryKey tableName
    let r ← match primaryKey with
      | some pk => do
        let pkCol ← toExcept (table.getCol pk) (.keyError pk)
        let extended ← extended.setIndexVals pk pkCol
        cpaChildren (fun c fk stc => cpa md mc fuel c tables fk stc)
          md mc tableName (md.children tableName) extended st1
      | none => .ok (extended, st1)
    let st2 : MState :=
      { r.2 with models := dictSet r.2.models tableName r.1,
                 log := r.2.log ++ [tableName] }
    let extended := match primaryKey with
      | some _ => r.1.resetIndex
      | none => r.1
    let extended ← match foreignKey with
      | some fk => do
        let fkCol ← toExcept (table.getCol fk) (.keyError fk)
        .ok (extended.assignAligned fk table.index fkCol)
      | none => .ok extended
    .ok (extended, st2)

/-- The loop of `model_database`: run `cpa` on every table without parents,
discarding the returned frame. -/
def modelDatabaseGo (md : Metadata) (mc : ModelClass) (fuel : Nat)
    (tables : List (String × DF)) : List String → MState → Except Err MState
  | [], st => .ok st
  | t :: rest, st =>
    if (md.parents t).isEmpty then do
      let r ← cpa md mc fuel t tables none st
      modelDatabaseGo md mc fuel tables rest r.2
    else modelDatabaseGo md mc fuel tables rest st

/-- `Modeler.model_database(tables)`. -/
def modelDatabase (md : Metadata) (mc : ModelClass) (fuel : Nat)
    (tables : List (String × DF)) (st : MState) : Except Err MState :=
  modelDatabaseGo md mc fuel tables md.tables st

end SDV

namespace SDV

/-! ### Dictionary lemmas -/

theorem dictGet_dictSet_self {α : Type} (m : List (String × α)) (k : String) (v : α) :
    dictGet (dictSet m k v) k = some v := by
  induction m with
  | nil => simp [dictGet, dictSet]
  | cons p rest ih =>
    by_cases h : p.1 = k <;> simp [dictGet, dictSet, h, ih]

theorem dictGet_dictSet_ne {α : Type} (m : List (String × α)) (k k' : String) (v : α)
    (h : k' ≠ k) : dictGet (dictSet m k v) k' = dictGet m k' := by
  induction m with
  | nil =>
    simp only [dictSet, dictGet, if_neg (fun hh : k = k' => h hh.symm)]
  | cons p rest ih =>
    by_cases hp : p.1 = k
    · subst hp
      simp only [dictSet, if_pos rfl, dictGet]
      simp only [if_neg (show ¬p.1 = k' from fun hh => h hh.symm)]
    · simp only [dictSet, if_neg hp, dictGet, ih]

theorem mem_keys_dictSet {α : Type} (m : List (String × α)) (k a : String) (v : α) :
    a ∈ (dictSet m k v).map Prod.fst ↔ a = k ∨ a ∈ m.map Prod.fst := by
  induction m with
  | nil => simp [dictSet, eq_comm]
  | cons p rest ih =>
    by_cases hp : p.1 = k
    · subst hp
      simp [dictSet, eq_comm]
    · simp only [dictSet, if_neg hp, List.map_cons, List.mem_cons, ih]
      tauto

theorem keys_dictSet_nodup {α : Type} (m : List (String × α)) (k : String) (v : α)
    (h : (m.map Prod.fst).Nodup) : ((dictSet m k v).map Prod.fst).Nodup := by
  induction m with
  | nil => simp [dictSet]
  | cons p rest ih =>
    simp only [List.map_cons, List.nodup_cons] at h
    by_cases hp : p.1 = k
    · subst hp
      simpa [dictSet, List.nodup_cons] using h
    · simp only [dictSet, if_neg hp, List.map_cons, List.nodup_cons]
      refine ⟨fun hc => ?_, ih h.2⟩
      rw [mem_keys_dictSet] at hc
      rcases hc with hc | hc
      · exact hp hc
      · exact h.1 hc

theorem dictGet_isSome_dictSet {α : Type} (m : List (String × α)) (k u : String) (v : α) :
    (dictGet (dictSet m k v) u).isSome ↔ u = k ∨ (dictGet m u).isSome := by
  by_cases h : u = k
  · subst h
    simp [dictGet_dictSet_self]
  · simp [dictGet_dictSet_ne m k u v h, h]

theorem dictGet_mem {α : Type} {m : List (String × α)} {k : String} {v : α}
    (h : dictGet m k = some v) : (k, v) ∈ m := by
  induction m with
  | nil => simp [dictGet] at h
  | cons p rest ih =>
    by_cases hp : p.1 = k
    · simp only [dictGet, if_pos hp] at h
      cases h
      cases p with
      | mk a b =>
        simp only at hp
        subst hp
        exact List.mem_cons_self _ _
    · simp only [dictGet, if_neg hp] at h
      exact List.mem_cons_of_mem _ (ih h)

theorem dictGet_isSome_iff_mem_keys {α : Type} (m : List (String × α)) (k : String) :
    (dictGet m k).isSome ↔ k ∈ m.map Prod.fst := by
  induction m with
  | nil => simp [dictGet]
  | cons p rest ih =>
    by_cases hp : p.1 = k
    · simp [dictGet, hp, eq_comm]
    · simp only [dictGet, if_neg hp, ih, List.map_cons, List.mem_cons]
      constructor
      · exact Or.inr
      · rintro (h | h)
        · exact absurd h.symm hp
        · exact h

theorem dictGet_append {α : Type} (m1 m2 : List (String × α)) (k : String)
    (h : k ∉ m1.map Prod.fst) : dictGet (m1 ++ m2) k = dictGet m2 k := by
  induction m1 with
  | nil => simp
  | cons p rest ih =>
    simp only [List.map_cons, List.mem_cons, not_or] at h
    simp only [List.cons_append, dictGet, if_neg (fun hh : p.1 = k => h.1 hh.symm)]
    exact ih h.2

theorem dictGet_map_snd {α β : Type} (m : List (String × α)) (f : α → β) (k : String) :
    dictGet (m.map (fun p => (p.1, f p.2))) k = (dictGet m k).map f := by
  induction m with
  | nil => simp [dictGet]
  | cons p rest ih =>
    by_cases hp : p.1 = k <;> simp [dictGet, hp, ih]

theorem dictGet_map_keys {α : Type} (keys : List String) (f : String → α) (k : String)
    (h : k ∈ keys) : dictGet (keys.map (fun c => (c, f c))) k = some (f k) := by
  induction keys with
  | nil => simp at h
  | cons c rest ih =>
    by_cases hc : c = k
    · subst hc
      simp [dictGet]
    · rcases List.mem_cons.mp h with h | h
      · exact absurd h.symm hc
      · simp [dictGet, hc, ih h]

theorem dictGet_map_keys_not_mem {α : Type} (keys : List String) (f : String → α)
    (k : String) (h : k ∉ keys) : dictGet (keys.map (fun c => (c, f c))) k = none := by
  induction keys with
  | nil => simp [dictGet]
  | cons c rest ih =>
    simp only [List.mem_cons, not_or] at h
    have hck : ¬c = k := fun hh => h.1 hh.symm
    simp [dictGet, hck, ih h.2]

/-! ### dedupFirst lemmas -/

theorem mem_dedupFirst {α : Type} [DecidableEq α] (l : List α) (a : α) :
    a ∈ dedupFirst l ↔ a ∈ l := by
  induction l with
  | nil => simp [dedupFirst]
  | cons x xs ih =>
    by_cases ha : a = x
    · subst ha
      simp [dedupFirst]
    · simp [dedupFirst, ha, List.mem_filter, ih]

theorem nodup_dedupFirst {α : Type} [DecidableEq α] (l : List α) :
    (dedupFirst l).Nodup := by
  induction l with
  | nil => simp [dedupFirst]
  | cons x xs ih =>
    simp only [dedupFirst, List.nodup_cons]
    constructor
    · intro hx
      simp [List.mem_filter] at hx
    · exact ih.filter _

theorem dedupFirst_sublist {α : Type} [DecidableEq α] (l : List α) :
    (dedupFirst l).Sublist l := by
  induction l with
  | nil => simp [dedupFirst]
  | cons x xs ih =>
    exact (List.filter_sublist _ |>.trans ih).cons₂ x

/-! ### toExcept lemmas -/

theorem toExcept_ok_iff {α : Type} (o : Option α) (e : Err) (a : α) :
    toExcept o e = .ok a ↔ o = some a := by
  cases o <;> simp [toExcept]

theorem toExcept_some {α : Type} (a : α) (e : Err) : toExcept (some a) e = .ok a := rfl

end SDV

namespace SDV

/-! ### Position and alignment lemmas -/

namespace DF

theorem matchPositions_nil (v : Cell) : matchPositions [] v = [] := rfl

theorem matchPositions_cons (i : Cell) (idx : List Cell) (v : Cell) :
    matchPositions (i :: idx) v =
      (if i = v then [0] else []) ++ (matchPositions idx v).map (fun q => q + 1) := by
  unfold matchPositions
  rw [List.length_cons, List.range_succ_eq_map, List.filter_cons]
  by_cases h : i = v
  · simp [h, List.filter_map, Function.comp_def]
  · simp [h, List.filter_map, Function.comp_def]

theorem mem_matchPositions {idx : List Cell} {v : Cell} {q : Nat} :
    q ∈ matchPositions idx v ↔ q < idx.length ∧ idx.getD q none = v := by
  simp [matchPositions, List.mem_filter, List.mem_range]

theorem matchPositions_eq_nil_iff {idx : List Cell} {v : Cell} :
    matchPositions idx v = [] ↔ v ∉ idx := by
  induction idx with
  | nil => simp [matchPositions_nil]
  | cons i idx ih =>
    rw [matchPositions_cons]
    by_cases h : i = v
    · simp [h]
    · simp only [if_neg h, List.nil_append, List.map_eq_nil_iff, ih, List.mem_cons]
      constructor
      · intro hv hc
        rcases hc with hc | hc
        · exact h hc.symm
        · exact hv hc
      · intro hv hc
        exact hv (Or.inr hc)

theorem matchPositions_nodup_cases (idx : List Cell) (v : Cell) (h : idx.Nodup) :
    matchPositions idx v = [] ∨ ∃ q, matchPositions idx v = [q] := by
  induction idx with
  | nil => exact Or.inl rfl
  | cons i idx ih =>
    rw [matchPositions_cons]
    rcases List.nodup_cons.mp h with ⟨hi, hn⟩
    by_cases hv : i = v
    · subst hv
      have h0 : matchPositions idx i = [] := matchPositions_eq_nil_iff.mpr hi
      exact Or.inr ⟨0, by simp [h0]⟩
    · rcases ih hn with h0 | ⟨q, hq⟩
      · exact Or.inl (by simp [hv, h0])
      · exact Or.inr ⟨q + 1, by simp [hv, hq]⟩

theorem filterByIndex_cons (i w : Cell) (idx vals : List Cell) (v : Cell) :
    filterByIndex (i :: idx) (w :: vals) v =
      (if i = v then [w] else []) ++ filterByIndex idx vals v := by
  unfold filterByIndex
  rw [List.zip_cons_cons, List.filter_cons]
  by_cases h : i = v
  · simp [h]
  · simp [h]

theorem filterByIndex_eq (idx : List Cell) (v : Cell) :
    ∀ vals : List Cell, vals.length = idx.length →
      filterByIndex idx vals v = (matchPositions idx v).map (fun q => vals.getD q none) := by
  induction idx with
  | nil =>
    intro vals h
    have hv : vals = [] := by
      cases vals
      · rfl
      · simp at h
    subst hv
    rfl
  | cons i idx ih =>
    intro vals h
    cases vals with
    | nil => simp at h
    | cons w vals =>
      have hlen : vals.length = idx.length := by simpa using h
      rw [filterByIndex_cons i w idx vals v, matchPositions_cons, ih vals hlen,
        List.map_append, List.map_map]
      congr 1
      by_cases hv : i = v <;> simp [hv]

theorem filterByIndex_not_mem (idx vals : List Cell) (v : Cell) (h : v ∉ idx) :
    filterByIndex idx vals v = [] := by
  unfold filterByIndex
  rw [List.map_eq_nil_iff]
  rw [List.filter_eq_nil_iff]
  intro q hq
  have hq1 : q.1 ∈ idx := by
    rcases q with ⟨a, b⟩
    exact (List.of_mem_zip hq).1
  simp only [decide_eq_true_eq]
  intro hv
  exact h (hv ▸ hq1)

theorem alignLookup_eq_head (idx vals : List Cell) (v : Cell) :
    alignLookup idx vals v = (filterByIndex idx vals v).headD none := by
  unfold alignLookup filterByIndex
  induction idx.zip vals with
  | nil => rfl
  | cons q rest ih =>
    by_cases h : q.1 = v
    · rw [List.find?_cons_of_pos _ (by simpa using h), List.filter_cons_of_pos (by simpa using h)]
      simp
    · rw [List.find?_cons_of_neg _ (by simpa using h), List.filter_cons_of_neg (by simpa using h)]
      exact ih

theorem alignLookup_not_mem (idx vals : List Cell) (v : Cell) (h : v ∉ idx) :
    alignLookup idx vals v = none := by
  rw [alignLookup_eq_head, filterByIndex_not_mem idx vals v h]
  rfl

theorem alignLookup_eq_matchHead (idx vals : List Cell) (v : Cell)
    (h : vals.length = idx.length) :
    alignLookup idx vals v =
      ((matchPositions idx v).head?.map (fun q => vals.getD q none)).getD none := by
  rw [alignLookup_eq_head, filterByIndex_eq idx v vals h]
  cases matchPositions idx v <;> simp

theorem map_alignLookup_self (idx : List Cell) :
    ∀ vals : List Cell, vals.length = idx.length → idx.Nodup →
      idx.map (alignLookup idx vals) = vals := by
  induction idx with
  | nil =>
    intro vals h _
    have hv : vals = [] := by
      cases vals
      · rfl
      · simp at h
    subst hv
    rfl
  | cons i idx ih =>
    intro vals h hn
    cases vals with
    | nil => simp at h
    | cons w vals =>
      rcases List.nodup_cons.mp hn with ⟨hi, hn'⟩
      have hlen : vals.length = idx.length := by simpa using h
      rw [List.map_cons]
      have hhead : alignLookup (i :: idx) (w :: vals) i = w := by
        unfold alignLookup
        rw [List.zip_cons_cons, List.find?_cons_of_pos _ (by simp)]
        rfl
      have htail : ∀ x ∈ idx, alignLookup (i :: idx) (w :: vals) x = alignLookup idx vals x := by
        intro x hx
        unfold alignLookup
        rw [List.zip_cons_cons, List.find?_cons_of_neg _ (by
          simp only [decide_eq_true_eq]
          exact fun hh => hi (hh ▸ hx))]
      rw [hhead, List.map_congr_left htail, ih vals hlen hn']

/-! ### Join and merge lemmas -/

theorem flatMap_eq_map {α β : Type} (l : List α) (f : α → List β) (g : α → β)
    (h : ∀ a ∈ l, f a = [g a]) : l.flatMap f = l.map g := by
  induction l with
  | nil => rfl
  | cons x xs ih =>
    rw [List.flatMap_cons, h x (List.mem_cons_self x xs), List.map_cons,
      ih (fun a ha => h a (List.mem_cons_of_mem x ha))]
    rfl

theorem joinPairs_eq_map (lIdx rIdx : List Cell) (hn : rIdx.Nodup) :
    joinPairs lIdx rIdx = (List.range lIdx.length).map
      (fun p => (p, (matchPositions rIdx (lIdx.getD p none)).head?)) := by
  apply flatMap_eq_map
  intro p _
  rcases matchPositions_nodup_cases rIdx (lIdx.getD p none) hn with h0 | ⟨q, hq⟩
  · rw [List.getD_eq_getElem?_getD] at h0
    simp [h0]
  · rw [List.getD_eq_getElem?_getD] at hq
    simp [hq]

theorem map_range_getD {α β : Type} (l : List α) (d : α) (g : α → β) :
    (List.range l.length).map (fun p => g (l.getD p d)) = l.map g := by
  induction l with
  | nil => rfl
  | cons x xs ih =>
    rw [List.length_cons, List.range_succ_eq_map, List.map_cons, List.map_map]
    simp only [List.getD_cons_zero, Function.comp_def, List.getD_cons_succ]
    rw [ih, List.map_cons]

theorem map_range_getD_id {α : Type} (l : List α) (d : α) :
    (List.range l.length).map (fun p => l.getD p d) = l := by
  have := map_range_getD l d id
  simpa using this

theorem merge_index (l r : DF) (hn : r.index.Nodup) :
    (l.mergeLeftIndex r).index = l.index := by
  show (joinPairs l.index r.index).map (fun pr => l.index.getD pr.1 none) = l.index
  rw [joinPairs_eq_map _ _ hn, List.map_map]
  simp only [Function.comp_def]
  exact map_range_getD_id l.index none

theorem merge_nRows (l r : DF) (hn : r.index.Nodup) :
    (l.mergeLeftIndex r).nRows = l.nRows := by
  unfold nRows
  rw [merge_index l r hn]

theorem merge_indexName (l r : DF) : (l.mergeLeftIndex r).indexName = l.indexName := rfl

theorem merge_colNames (l r : DF) :
    (l.mergeLeftIndex r).colNames = l.colNames ++ r.colNames := by
  show (l.cols.map _ ++ r.cols.map _).map Prod.fst = _
  rw [List.map_append, List.map_map, List.map_map]
  rfl

theorem option_elim_eq_map_getD {α β : Type} (o : Option α) (g : α → Option β) :
    o.elim none g = (o.map g).getD none := by
  cases o <;> rfl

theorem merge_getCol_right (l r : DF) (c : String) (vals : List Cell)
    (hn : r.index.Nodup) (hc : c ∉ l.colNames) (hr : r.getCol c = some vals)
    (hlen : vals.length = r.index.length) :
    (l.mergeLeftIndex r).getCol c = some (l.index.map (alignLookup r.index vals)) := by
  have hna : c ∉ (l.cols.map (fun cc =>
      (cc.1, (joinPairs l.index r.index).map (fun pr => cc.2.getD pr.1 none)))).map Prod.fst := by
    rw [List.map_map]
    intro hmem
    apply hc
    rcases List.mem_map.mp hmem with ⟨cc, hcc, hceq⟩
    exact List.mem_map.mpr ⟨cc, hcc, hceq⟩
  show dictGet (l.cols.map _ ++ r.cols.map _) c = _
  rw [dictGet_append _ _ c hna]
  rw [dictGet_map_snd r.cols
    (fun vs => (joinPairs l.index r.index).map
      (fun pr => pr.2.elim none (fun q => vs.getD q none))) c]
  rw [show dictGet r.cols c = some vals from hr]
  rw [Option.map_some']
  congr 1
  rw [joinPairs_eq_map _ _ hn, List.map_map]
  simp only [Function.comp_def]
  have hpoint : ∀ p ∈ List.range l.index.length,
      ((matchPositions r.index (l.index.getD p none)).head?.elim none
        (fun q => vals.getD q none)) =
      alignLookup r.index vals (l.index.getD p none) := by
    intro p _
    rw [alignLookup_eq_matchHead r.index vals _ hlen, option_elim_eq_map_getD]
  rw [List.map_congr_left hpoint]
  exact map_range_getD l.index none (alignLookup r.index vals)

end DF

end SDV

namespace SDV

/-! ### Small DataFrame operation lemmas -/

namespace DF

theorem getCol_setCol_self (df : DF) (c : String) (vals : List Cell) :
    (df.setCol c vals).getCol c = some vals := dictGet_dictSet_self _ _ _

theorem getCol_setCol_ne (df : DF) (c c' : String) (vals : List Cell) (h : c' ≠ c) :
    (df.setCol c vals).getCol c' = df.getCol c' := dictGet_dictSet_ne _ _ _ _ h

theorem setCol_index (df : DF) (c : String) (vals : List Cell) :
    (df.setCol c vals).index = df.index := rfl

theorem setCol_indexName (df : DF) (c : String) (vals : List Cell) :
    (df.setCol c vals).indexName = df.indexName := rfl

theorem setCol_nRows (df : DF) (c : String) (vals : List Cell) :
    (df.setCol c vals).nRows = df.nRows := rfl

theorem mem_colNames_setCol (df : DF) (c a : String) (vals : List Cell) :
    a ∈ (df.setCol c vals).colNames ↔ a = c ∨ a ∈ df.colNames :=
  mem_keys_dictSet df.cols c a vals

theorem mem_colNames_iff_getCol_isSome (df : DF) (c : String) :
    c ∈ df.colNames ↔ (df.getCol c).isSome := (dictGet_isSome_iff_mem_keys df.cols c).symm

theorem defaultRange_length (n : Nat) : (defaultRange n).length = n := by
  simp [defaultRange]

theorem defaultRange_nodup (n : Nat) : (defaultRange n).Nodup := by
  refine List.Nodup.map ?_ (List.nodup_range n)
  intro a b hab
  simpa using hab

theorem resetIndex_index (df : DF) : df.resetIndex.index = defaultRange df.nRows := rfl

theorem resetIndex_nRows (df : DF) : df.resetIndex.nRows = df.nRows := by
  show (defaultRange df.nRows).length = df.nRows
  exact defaultRange_length df.nRows

theorem resetIndex_colNames (df : DF) :
    df.resetIndex.colNames = (df.indexName.getD "index") :: df.colNames := rfl

theorem assignAligned_index (df : DF) (c : String) (sIdx sVals : List Cell) :
    (df.assignAligned c sIdx sVals).index = df.index := rfl

theorem assignAligned_nRows (df : DF) (c : String) (sIdx sVals : List Cell) :
    (df.assignAligned c sIdx sVals).nRows = df.nRows := rfl

theorem mem_colNames_assignAligned (df : DF) (c a : String) (sIdx sVals : List Cell) :
    a ∈ (df.assignAligned c sIdx sVals).colNames ↔ a = c ∨ a ∈ df.colNames :=
  mem_colNames_setCol df c a _

theorem locEq_index (df : DF) (v : Cell) :
    (df.locEq v).index = df.index.filter (fun i => decide (i = v)) := rfl

theorem dropCol_index (df : DF) (c : String) : (df.dropCol c).index = df.index := rfl

theorem dropCol_nRows (df : DF) (c : String) : (df.dropCol c).nRows = df.nRows := rfl

theorem getCol_mem_cols {df : DF} {c : String} {vals : List Cell}
    (h : df.getCol c = some vals) : (c, vals) ∈ df.cols := dictGet_mem h

theorem length_filter_eq_length_matchPositions (l : List Cell) (v : Cell) :
    (l.filter (fun i => decide (i = v))).length = (matchPositions l v).length := by
  induction l with
  | nil => rfl
  | cons i l ih =>
    rw [List.filter_cons, matchPositions_cons, List.length_append, List.length_map]
    by_cases h : i = v <;> simp [h, ih, Nat.add_comm]

end DF

/-! ### dfFromRows lemmas -/

theorem dfFromRows_index (rows : List (List (String × Int))) (idx : List Cell) :
    (dfFromRows rows idx).index = idx := rfl

theorem dfFromRows_colNames (rows : List (List (String × Int))) (idx : List Cell) :
    (dfFromRows rows idx).colNames = unionKeys rows := by
  show ((unionKeys rows).map _).map Prod.fst = unionKeys rows
  rw [List.map_map]
  simp [Function.comp_def]

theorem dfFromRows_getCol {rows : List (List (String × Int))} {idx : List Cell} {c : String}
    (h : c ∈ unionKeys rows) :
    (dfFromRows rows idx).getCol c = some (rows.map (fun r => dictGet r c)) :=
  dictGet_map_keys _ _ _ h

theorem dfFromRows_WF (rows : List (List (String × Int))) (idx : List Cell)
    (h : rows.length = idx.length) : (dfFromRows rows idx).WF := by
  intro p hp
  rcases List.mem_map.mp hp with ⟨cname, _, hceq⟩
  have : p.2 = rows.map (fun r => dictGet r cname) := by rw [← hceq]
  rw [this]
  simpa using h

theorem nodup_unionKeys (rows : List (List (String × Int))) : (unionKeys rows).Nodup :=
  nodup_dedupFirst _

theorem mem_unionKeys {rows : List (List (String × Int))} {r : List (String × Int)}
    {k : String} (hr : r ∈ rows) (hk : k ∈ r.map Prod.fst) : k ∈ unionKeys rows := by
  unfold unionKeys
  rw [mem_dedupFirst]
  exact List.mem_flatMap.mpr ⟨r, hr, hk⟩

/-! ### String prefixing lemmas -/

theorem string_append_cancel (a b c : String) (h : a ++ b = a ++ c) : b = c := by
  have hd := congrArg String.data h
  rw [String.data_append, String.data_append] at hd
  apply String.ext
  exact List.append_cancel_left hd

theorem dictGet_prefixRow (C : String) (r : List (String × Int)) (k : String) :
    dictGet (prefixRow C r) ("__" ++ C ++ "__" ++ k) = dictGet r k := by
  induction r with
  | nil => rfl
  | cons p rest ih =>
    show dictGet (("__" ++ C ++ "__" ++ p.1, p.2) :: prefixRow C rest) _ = _
    by_cases h : p.1 = k
    · subst h
      simp [dictGet]
    · have hne : ¬("__" ++ C ++ "__" ++ p.1 = "__" ++ C ++ "__" ++ k) := by
        intro hh
        exact h (string_append_cancel _ _ _ hh)
      simp only [dictGet, if_neg hne, if_neg h, ih]

theorem mem_keys_prefixRow {C : String} {r : List (String × Int)} {k : String}
    (h : k ∈ r.map Prod.fst) :
    ("__" ++ C ++ "__" ++ k) ∈ (prefixRow C r).map Prod.fst := by
  rcases List.mem_map.mp h with ⟨p, hp, hpe⟩
  subst hpe
  exact List.mem_map.mpr ⟨("__" ++ C ++ "__" ++ p.1, p.2), List.mem_map.mpr ⟨p, hp, rfl⟩, rfl⟩

/-! ### extensionRow and getExtension lemmas -/

theorem child_rows_name_eq (C : String) :
    "__" ++ C ++ "__child_rows" = "__" ++ C ++ "__" ++ "child_rows" := by
  rw [String.append_assoc ("__" ++ C) "__" "child_rows"]
  congr 1

theorem mem_keys_extensionRow_child_rows (md : Metadata) (mc : ModelClass) (C : String)
    (ctIdx : DF) (v : Cell) :
    ("__" ++ C ++ "__child_rows") ∈ (extensionRow md mc C ctIdx v).map Prod.fst := by
  rw [child_rows_name_eq]
  unfold extensionRow
  apply mem_keys_prefixRow
  exact (mem_keys_dictSet _ _ _ _).mpr (Or.inl rfl)

theorem mem_keys_extensionRow_param (md : Metadata) (mc : ModelClass) (C : String)
    (ctIdx : DF) (v : Cell) (k : String)
    (h : k ∈ (mc.getParams (subTableFor md C ctIdx v)).map Prod.fst) :
    ("__" ++ C ++ "__" ++ k) ∈ (extensionRow md mc C ctIdx v).map Prod.fst := by
  unfold extensionRow
  apply mem_keys_prefixRow
  by_cases hk : k = "child_rows"
  · subst hk
    exact (mem_keys_dictSet _ _ _ _).mpr (Or.inl rfl)
  · rcases List.mem_map.mp h with ⟨p, hp, hpe⟩
    have : k ∈ (dictSet (mc.getParams (subTableFor md C ctIdx v)) "child_rows"
        (Int.ofNat (subTableFor md C ctIdx v).nRows)).map Prod.fst :=
      (mem_keys_dictSet _ _ _ _).mpr (Or.inr h)
    exact this

theorem dictGet_extensionRow_child_rows (md : Metadata) (mc : ModelClass) (C : String)
    (ctIdx : DF) (v : Cell) :
    dictGet (extensionRow md mc C ctIdx v) ("__" ++ C ++ "__child_rows") =
      some (Int.ofNat (subTableFor md C ctIdx v).nRows) := by
  rw [child_rows_name_eq]
  unfold extensionRow
  rw [dictGet_prefixRow]
  exact dictGet_dictSet_self _ _ _

theorem except_bind_ok {ε α β : Type} (a : α) (f : α → Except ε β) :
    (Except.ok a >>= f : Except ε β) = f a := rfl

theorem except_bind_error {ε α β : Type} (er : ε) (f : α → Except ε β) :
    (Except.error er >>= f : Except ε β) = .error er := rfl

theorem setIndexCol_of_getCol {ct : DF} {fk : String} {fkVals : List Cell}
    (h : ct.getCol fk = some fkVals) :
    ct.setIndexCol fk = .ok ⟨some fk, fkVals, ct.cols.filter (fun p => decide (p.1 ≠ fk))⟩ := by
  unfold DF.setIndexCol
  rw [show dictGet ct.cols fk = some fkVals from h]

theorem getExtension_ok {md : Metadata} {mc : ModelClass} {C : String} {ct : DF}
    {fk : String} {e : DF} (h : getExtension md mc C ct fk = .ok e) :
    ∃ fkVals : List Cell, ct.getCol fk = some fkVals ∧
      e = dfFromRows
        ((dedupFirst fkVals).map
          (extensionRow md mc C ⟨some fk, fkVals, ct.cols.filter (fun p => decide (p.1 ≠ fk))⟩))
        (dedupFirst fkVals) := by
  unfold getExtension at h
  cases hcol : ct.getCol fk with
  | none =>
    rw [hcol] at h
    simp only [toExcept, except_bind_error] at h
    exact absurd h (by simp)
  | some fkVals =>
    refine ⟨fkVals, rfl, ?_⟩
    rw [hcol, setIndexCol_of_getCol hcol] at h
    simp only [toExcept, except_bind_ok, Except.ok.injEq] at h
    exact h.symm

theorem getExtension_index {md : Metadata} {mc : ModelClass} {C : String} {ct : DF}
    {fk : String} {e : DF} {fkVals : List Cell} (h : getExtension md mc C ct fk = .ok e)
    (hcol : ct.getCol fk = some fkVals) : e.index = dedupFirst fkVals := by
  rcases getExtension_ok h with ⟨fkVals2, hcol2, he⟩
  rw [hcol] at hcol2
  cases hcol2
  rw [he]
  rfl

theorem getExtension_index_nodup {md : Metadata} {mc : ModelClass} {C : String} {ct : DF}
    {fk : String} {e : DF} (h : getExtension md mc C ct fk = .ok e) : e.index.Nodup := by
  rcases getExtension_ok h with ⟨fkVals, _, he⟩
  rw [he]
  exact nodup_dedupFirst fkVals

theorem getExtension_WF {md : Metadata} {mc : ModelClass} {C : String} {ct : DF}
    {fk : String} {e : DF} (h : getExtension md mc C ct fk = .ok e) : e.WF := by
  rcases getExtension_ok h with ⟨fkVals, _, he⟩
  rw [he]
  exact dfFromRows_WF _ _ (by simp)

end SDV

namespace SDV

/-- The cell of `df` in column `c` at the (first) row whose index label is
`v`; `none` when the column is absent, a missing cell when no row matches. -/
def DF.cellAt (df : DF) (v : Cell) (c : String) : Option Cell :=
  (df.getCol c).map (fun vals => DF.alignLookup df.index vals v)

theorem DF.alignLookup_map_fun (F : Cell → Cell) :
    ∀ idx : List Cell, idx.Nodup → ∀ v ∈ idx,
      DF.alignLookup idx (idx.map F) v = F v := by
  intro idx
  induction idx with
  | nil =>
    intro _ v hv
    cases hv
  | cons i idx ih =>
    intro hn v hv
    rcases List.nodup_cons.mp hn with ⟨hi, hn'⟩
    rw [List.map_cons]
    by_cases h : i = v
    · subst h
      unfold DF.alignLookup
      rw [List.zip_cons_cons, List.find?_cons_of_pos _ (by simp)]
      rfl
    · rcases List.mem_cons.mp hv with hv1 | hv1
      · exact absurd hv1.symm h
      · unfold DF.alignLookup
        rw [List.zip_cons_cons, List.find?_cons_of_neg _ (by simpa using h)]
        exact ih hn' v hv1

theorem dfFromRows_cellAt_mapRow (R : Cell → List (String × Int)) (idx : List Cell)
    (hn : idx.Nodup) (v : Cell) (hv : v ∈ idx) (c : String)
    (hc : c ∈ unionKeys (idx.map R)) :
    (dfFromRows (idx.map R) idx).cellAt v c = some (dictGet (R v) c) := by
  unfold DF.cellAt
  rw [dfFromRows_getCol hc, Option.map_some']
  congr 1
  show DF.alignLookup idx ((idx.map R).map (fun r => dictGet r c)) v = dictGet (R v) c
  rw [List.map_map]
  exact DF.alignLookup_map_fun (fun w => dictGet (R w) c) idx hn v hv

/-! ### mergeChildStep lemmas -/

theorem mergeChildStep_ok_elim {C : String} {w e w' : DF}
    (h : mergeChildStep C w e = .ok w') :
    ∃ col, (w.mergeLeftIndex e).getCol ("__" ++ C ++ "__child_rows") = some col ∧
      w' = (w.mergeLeftIndex e).setCol ("__" ++ C ++ "__child_rows") (col.map fillna0) := by
  simp only [mergeChildStep] at h
  cases hcol : (w.mergeLeftIndex e).getCol ("__" ++ C ++ "__child_rows") with
  | none =>
    rw [hcol] at h
    simp only [toExcept, except_bind_error] at h
    exact absurd h (by simp)
  | some col =>
    rw [hcol] at h
    simp only [toExcept, except_bind_ok, Except.ok.injEq] at h
    exact ⟨col, rfl, h.symm⟩

theorem mergeChildStep_index {C : String} {w e w' : DF}
    (h : mergeChildStep C w e = .ok w') (hn : e.index.Nodup) : w'.index = w.index := by
  rcases mergeChildStep_ok_elim h with ⟨col, _, hw⟩
  rw [hw, DF.setCol_index]
  exact DF.merge_index w e hn

theorem mergeChildStep_indexName {C : String} {w e w' : DF}
    (h : mergeChildStep C w e = .ok w') : w'.indexName = w.indexName := by
  rcases mergeChildStep_ok_elim h with ⟨col, _, hw⟩
  rw [hw, DF.setCol_indexName]
  exact DF.merge_indexName w e

theorem mergeChildStep_colNames_left {C : String} {w e w' : DF}
    (h : mergeChildStep C w e = .ok w') {a : String} (ha : a ∈ w.colNames) :
    a ∈ w'.colNames := by
  rcases mergeChildStep_ok_elim h with ⟨col, _, hw⟩
  rw [hw, DF.mem_colNames_setCol]
  right
  rw [DF.merge_colNames]
  exact List.mem_append_left _ ha

theorem mergeChildStep_colNames_right {C : String} {w e w' : DF}
    (h : mergeChildStep C w e = .ok w') {a : String} (ha : a ∈ e.colNames) :
    a ∈ w'.colNames := by
  rcases mergeChildStep_ok_elim h with ⟨col, _, hw⟩
  rw [hw, DF.mem_colNames_setCol]
  right
  rw [DF.merge_colNames]
  exact List.mem_append_right _ ha

theorem mergeChildStep_has_child_rows {C : String} {w e w' : DF}
    (h : mergeChildStep C w e = .ok w') :
    ("__" ++ C ++ "__child_rows") ∈ w'.colNames := by
  rcases mergeChildStep_ok_elim h with ⟨col, _, hw⟩
  rw [hw, DF.mem_colNames_setCol]
  exact Or.inl rfl

/-! ### cpaChildren elimination -/

theorem cpaChildren_ok_facts
    (rec : String → Option String → MState → Except Err (DF × MState))
    (md : Metadata) (mc : ModelClass) (pn : String) :
    ∀ (cs : List String) (ext : DF) (st : MState) (ext' : DF) (st' : MState),
      cpaChildren rec md mc pn cs ext st = .ok (ext', st') →
      ext'.index = ext.index ∧ ext'.indexName = ext.indexName ∧
        (∀ a ∈ ext.colNames, a ∈ ext'.colNames) ∧
        ∀ C ∈ cs, ∃ ct e stA stB,
          rec C (some (md.foreignKey pn C)) stA = .ok (ct, stB) ∧
          getExtension md mc C ct (md.foreignKey pn C) = .ok e ∧
          ("__" ++ C ++ "__child_rows") ∈ ext'.colNames ∧
          (∀ a ∈ e.colNames, a ∈ ext'.colNames) := by
  intro cs
  induction cs with
  | nil =>
    intro ext st ext' st' h
    simp only [cpaChildren, Except.ok.injEq, Prod.mk.injEq] at h
    obtain ⟨h1, h2⟩ := h
    subst h1
    subst h2
    exact ⟨rfl, rfl, fun a ha => ha, fun C hC => absurd hC (by simp)⟩
  | cons C rest ih =>
    intro ext st ext' st' h
    simp only [cpaChildren] at h
    cases hrec : rec C (some (md.foreignKey pn C)) st with
    | error er =>
      rw [hrec] at h
      simp only [except_bind_error] at h
      exact absurd h (by simp)
    | ok r =>
      rw [hrec, except_bind_ok] at h
      cases hext : getExtension md mc C r.1 (md.foreignKey pn C) with
      | error er =>
        rw [hext] at h
        simp only [except_bind_error] at h
        exact absurd h (by simp)
      | ok extension =>
        rw [hext, except_bind_ok] at h
        cases hmerge : mergeChildStep C ext extension with
        | error er =>
          rw [hmerge] at h
          simp only [except_bind_error] at h
          exact absurd h (by simp)
        | ok ext1 =>
          rw [hmerge, except_bind_ok] at h
          have hn : extension.index.Nodup := getExtension_index_nodup hext
          rcases ih ext1 r.2 ext' st' h with ⟨hidx, hiname, hsup, hrest⟩
          refine ⟨?_, ?_, ?_, ?_⟩
          · rw [hidx]
            exact mergeChildStep_index hmerge hn
          · rw [hiname]
            exact mergeChildStep_indexName hmerge
          · intro a ha
            exact hsup a (mergeChildStep_colNames_left hmerge ha)
          · intro C2 hC2
            rcases List.mem_cons.mp hC2 with hC2 | hC2
            · subst hC2
              refine ⟨r.1, extension, st, r.2, hrec, hext, ?_, ?_⟩
              · exact hsup _ (mergeChildStep_has_child_rows hmerge)
              · intro a ha
                exact hsup a (mergeChildStep_colNames_right hmerge ha)
            · exact hrest C2 hC2

end SDV

namespace SDV

/-! ### cpa elimination -/

/-- Step 7 of `cpa`: the shape of the returned frame after the optional
foreign-key column attachment. -/
def afterFk (fk : Option String) (table base ext : DF) : Prop :=
  match fk with
  | none => ext = base
  | some fkc => ∃ fkCol, table.getCol fkc = some fkCol ∧
      ext = base.assignAligned fkc table.index fkCol

theorem cpa_zero (md : Metadata) (mc : ModelClass) (T : String)
    (tables : List (String × DF)) (fk : Option String) (st : MState) :
    cpa md mc 0 T tables fk st = .error .fuelExhausted := rfl

theorem cpa_ok_fuel_succ {md : Metadata} {mc : ModelClass} {fuel : Nat} {T : String}
    {tables : List (String × DF)} {fk : Option String} {st : MState} {out : DF × MState}
    (h : cpa md mc fuel T tables fk st = .ok out) : ∃ fuel0, fuel = fuel0 + 1 := by
  cases fuel with
  | zero => exact absurd h (by simp [cpa_zero])
  | succ fuel0 => exact ⟨fuel0, rfl⟩

theorem cpa_ok_pk_some {md : Metadata} {mc : ModelClass} {fuel : Nat} {T : String}
    {tables : List (String × DF)} {fk : Option String} {st : MState} {ext : DF}
    {st' : MState} {pk : String} (hpk : md.primaryKey T = some pk)
    (h : cpa md mc (fuel + 1) T tables fk st = .ok (ext, st')) :
    ∃ table pkCol exti r1 r2,
      resolveTable md tables T = .ok table ∧
      table.getCol pk = some pkCol ∧
      (md.transform T table).setIndexVals pk pkCol = .ok exti ∧
      cpaChildren (fun c fk2 stc => cpa md mc fuel c tables fk2 stc) md mc T
        (md.children T) exti
        { st with tableSizes := dictSet st.tableSizes T table.nRows } = .ok (r1, r2) ∧
      st' = { r2 with models := dictSet r2.models T r1, log := r2.log ++ [T] } ∧
      afterFk fk table r1.resetIndex ext := by
  simp only [cpa] at h
  cases hres : resolveTable md tables T with
  | error er =>
    rw [hres] at h
    simp only [except_bind_error] at h
    exact absurd h (by simp)
  | ok table =>
    rw [hres, except_bind_ok, hpk] at h
    simp only [] at h
    cases hpkcol : table.getCol pk with
    | none =>
      rw [hpkcol] at h
      simp only [toExcept, except_bind_error] at h
      exact absurd h (by simp)
    | some pkCol =>
      rw [hpkcol] at h
      simp only [toExcept, except_bind_ok] at h
      cases hsiv : (md.transform T table).setIndexVals pk pkCol with
      | error er =>
        rw [hsiv] at h
        simp only [except_bind_error] at h
        exact absurd h (by simp)
      | ok exti =>
        rw [hsiv, except_bind_ok] at h
        cases hch : cpaChildren (fun c fk2 stc => cpa md mc fuel c tables fk2 stc) md mc T
            (md.children T) exti
            { st with tableSizes := dictSet st.tableSizes T table.nRows } with
        | error er =>
          rw [hch] at h
          simp only [except_bind_error] at h
          exact absurd h (by simp)
        | ok r =>
          rw [hch, except_bind_ok] at h
          refine ⟨table, pkCol, exti, r.1, r.2, rfl, hpkcol, hsiv, hch, ?_⟩
          cases fk with
          | none =>
            simp only [except_bind_ok, Except.ok.injEq, Prod.mk.injEq] at h
            exact ⟨h.2.symm, h.1.symm⟩
          | some fkc =>
            simp only [] at h
            cases hfkcol : table.getCol fkc with
            | none =>
              rw [hfkcol] at h
              simp only [toExcept, except_bind_error] at h
              exact absurd h (by simp)
            | some fkCol =>
              rw [hfkcol] at h
              simp only [toExcept, except_bind_ok, Except.ok.injEq, Prod.mk.injEq] at h
              exact ⟨h.2.symm, fkCol, hfkcol, h.1.symm⟩

theorem cpa_ok_pk_none {md : Metadata} {mc : ModelClass} {fuel : Nat} {T : String}
    {tables : List (String × DF)} {fk : Option String} {st : MState} {ext : DF}
    {st' : MState} (hpk : md.primaryKey T = none)
    (h : cpa md mc (fuel + 1) T tables fk st = .ok (ext, st')) :
    ∃ table,
      resolveTable md tables T = .ok table ∧
      st' = ⟨dictSet st.models T (md.transform T table),
             dictSet st.tableSizes T table.nRows, st.log ++ [T]⟩ ∧
      afterFk fk table (md.transform T table) ext := by
  simp only [cpa] at h
  cases hres : resolveTable md tables T with
  | error er =>
    rw [hres] at h
    simp only [except_bind_error] at h
    exact absurd h (by simp)
  | ok table =>
    rw [hres, except_bind_ok, hpk] at h
    simp only [except_bind_ok] at h
    refine ⟨table, rfl, ?_⟩
    cases fk with
    | none =>
      simp only [except_bind_ok, Except.ok.injEq, Prod.mk.injEq] at h
      exact ⟨h.2.symm, h.1.symm⟩
    | some fkc =>
      simp only [] at h
      cases hfkcol : table.getCol fkc with
      | none =>
        rw [hfkcol] at h
        simp only [toExcept, except_bind_error] at h
        exact absurd h (by simp)
      | some fkCol =>
        rw [hfkcol] at h
        simp only [toExcept, except_bind_ok, Except.ok.injEq, Prod.mk.injEq] at h
        exact ⟨h.2.symm, fkCol, hfkcol, h.1.symm⟩

end SDV

namespace SDV

/-- The cell of `df` in column `c` at row position `p`; `none` when the
column is absent, a missing cell (`some none`) when the cell is NaN. -/
def DF.cellPos (df : DF) (p : Nat) (c : String) : Option Cell :=
  (df.getCol c).map (fun vals => vals.getD p none)

theorem subTableFor_nRows (md : Metadata) (C : String) (ctIdx : DF) (v : Cell) :
    (subTableFor md C ctIdx v).nRows =
      (ctIdx.index.filter (fun i => decide (i = v))).length := by
  unfold subTableFor
  cases md.primaryKey C with
  | none => rfl
  | some pk =>
    by_cases h : ((ctIdx.locEq v).getCol pk).isSome
    · simp only [if_pos h]
      rfl
    · simp only [if_neg h]
      rfl

theorem getD_map_lt {α β : Type} (l : List α) (f : α → β) (p : Nat) (hp : p < l.length)
    (d : β) (d2 : α) : (l.map f).getD p d = f (l.getD p d2) := by
  rw [List.getD_eq_getElem?_getD, List.getD_eq_getElem?_getD, List.getElem?_map,
    List.getElem?_eq_getElem hp]
  rfl

theorem dedupFirst_ne_nil {α : Type} [DecidableEq α] {l : List α} (h : l ≠ []) :
    dedupFirst l ≠ [] := by
  cases l with
  | nil => exact absurd rfl h
  | cons x xs => simp [dedupFirst]

/-- C9: in every extension row built by `_get_extension`, the field
`__<child>__child_rows` equals the number of child rows carrying that
foreign-key value; a model parameter named `child_rows` is overwritten by the
count (the dictionary write `row['child_rows'] = num_child_rows` wins), so
its value is lost. -/
theorem getExtension_c9_child_rows_overwrite {md : Metadata} {mc : ModelClass}
    {C : String} {ct : DF} {fk : String} {e : DF} {fkVals : List Cell}
    (hok : getExtension md mc C ct fk = .ok e)
    (hcol : ct.getCol fk = some fkVals) :
    ∀ v ∈ e.index,
      e.cellAt v ("__" ++ C ++ "__child_rows") =
        some (some (Int.ofNat ((fkVals.filter (fun x => decide (x = v))).length))) := by
  intro v hv
  rcases getExtension_ok hok with ⟨fkVals2, hcol2, he⟩
  rw [hcol] at hcol2
  cases hcol2
  subst he
  rw [dfFromRows_index] at hv
  rw [dfFromRows_cellAt_mapRow _ _ (nodup_dedupFirst fkVals) v hv _
    (mem_unionKeys (List.mem_map_of_mem _ hv)
      (mem_keys_extensionRow_child_rows md mc C _ v))]
  rw [dictGet_extensionRow_child_rows, subTableFor_nRows]

/-- C2: for a child table containing the foreign-key column, the extension
table of `_get_extension` has exactly one row per distinct foreign-key value;
its index is those distinct values in first-occurrence order; and the row of
each value `v` is the flattened parameter row of a model fit on a sub-table
holding exactly the cells of the child rows whose foreign-key cell is `v`
(no rows of other parents leak in). -/
theorem getExtension_c2_partition {md : Metadata} {mc : ModelClass}
    {C : String} {ct : DF} {fk : String} {e : DF} {fkVals : List Cell}
    (hok : getExtension md mc C ct fk = .ok e)
    (hcol : ct.getCol fk = some fkVals)
    (hwf : ct.WF) :
    e.index = dedupFirst fkVals ∧
    e.index.Nodup ∧
    e.nRows = (dedupFirst fkVals).length ∧
    (∀ a, a ∈ e.index ↔ a ∈ fkVals) ∧
    e.index.Sublist fkVals ∧
    ∀ v ∈ e.index,
      ∃ ctIdx sub, ct.setIndexCol fk = .ok ctIdx ∧
        sub = subTableFor md C ctIdx v ∧
        (∀ c2 ∈ e.colNames,
          e.cellAt v c2 = some (dictGet (extensionRow md mc C ctIdx v) c2)) ∧
        sub.nRows = (DF.matchPositions fkVals v).length ∧
        ∀ pr ∈ sub.cols, ∃ origVals,
          (pr.1, origVals) ∈ ct.cols ∧ ¬pr.1 = fk ∧
          pr.2 = (DF.matchPositions fkVals v).map (fun q => origVals.getD q none) := by
  rcases getExtension_ok hok with ⟨fkVals2, hcol2, he⟩
  rw [hcol] at hcol2
  cases hcol2
  subst he
  have hfklen : fkVals.length = ct.index.length :=
    hwf (fk, fkVals) (DF.getCol_mem_cols hcol)
  refine ⟨rfl, nodup_dedupFirst fkVals, rfl, fun a => mem_dedupFirst fkVals a,
    dedupFirst_sublist fkVals, ?_⟩
  intro v hv
  rw [dfFromRows_index] at hv
  refine ⟨⟨some fk, fkVals, ct.cols.filter (fun p => decide (p.1 ≠ fk))⟩,
    subTableFor md C ⟨some fk, fkVals, ct.cols.filter (fun p => decide (p.1 ≠ fk))⟩ v,
    setIndexCol_of_getCol hcol, rfl, ?_, ?_, ?_⟩
  · intro c2 hc2
    rw [dfFromRows_colNames] at hc2
    exact dfFromRows_cellAt_mapRow _ _ (nodup_dedupFirst fkVals) v hv c2 hc2
  · rw [subTableFor_nRows]
    exact DF.length_filter_eq_length_matchPositions fkVals v
  · intro pr hpr
    have hpr2 : pr ∈ (DF.locEq ⟨some fk, fkVals,
        ct.cols.filter (fun p => decide (p.1 ≠ fk))⟩ v).cols := by
      revert hpr
      unfold subTableFor
      cases md.primaryKey C with
      | none => exact fun hpr => hpr
      | some pk =>
        by_cases h : ((DF.locEq ⟨some fk, fkVals,
            ct.cols.filter (fun p => decide (p.1 ≠ fk))⟩ v).getCol pk).isSome
        · simp only [if_pos h]
          intro hpr
          exact List.mem_of_mem_filter hpr
        · simp only [if_neg h]
          exact fun hpr => hpr
    rcases List.mem_map.mp hpr2 with ⟨p0, hp0, hpe⟩
    have hp0mem : p0 ∈ ct.cols := List.mem_of_mem_filter hp0
    have hp0ne : ¬p0.1 = fk := by
      have := List.of_mem_filter hp0
      simpa using this
    refine ⟨p0.2, ?_, ?_, ?_⟩
    · rw [← hpe]
      exact hp0mem
    · rw [← hpe]
      exact hp0ne
    · rw [← hpe]
      show DF.filterByIndex fkVals p0.2 v = _
      exact DF.filterByIndex_eq fkVals v p0.2 (by rw [hwf p0 hp0mem, hfklen])

/-- C3: at the merge step of `cpa` (lines 112-114), a parent row whose index
value matches no foreign-key value of the child table gets
`__<child>__child_rows = 0` (the `fillna(0)`) while every other extension
column of that child stays missing (NaN) on that row. -/
theorem mergeChildStep_c3_zero_children {md : Metadata} {mc : ModelClass}
    {C : String} {ct : DF} {fk : String} {e w w' : DF} {fkVals : List Cell} {p : Nat}
    (hext : getExtension md mc C ct fk = .ok e)
    (hcol : ct.getCol fk = some fkVals)
    (hne : fkVals ≠ [])
    (hmerge : mergeChildStep C w e = .ok w')
    (hdisj : ∀ a ∈ e.colNames, a ∉ w.colNames)
    (hp : p < w.nRows)
    (hmiss : w.index.getD p none ∉ fkVals) :
    w'.cellPos p ("__" ++ C ++ "__child_rows") = some (some 0) ∧
    ∀ c2 ∈ e.colNames, ¬c2 = ("__" ++ C ++ "__child_rows") →
      w'.cellPos p c2 = some none := by
  have hn : e.index.Nodup := getExtension_index_nodup hext
  have hewf : e.WF := getExtension_WF hext
  have heidx : e.index = dedupFirst fkVals := getExtension_index hext hcol
  have hvnot : w.index.getD p none ∉ e.index := by
    rw [heidx, mem_dedupFirst]
    exact hmiss
  have hcrname : ("__" ++ C ++ "__child_rows") ∈ e.colNames := by
    rcases getExtension_ok hext with ⟨fkVals2, hcol2, he⟩
    rw [hcol] at hcol2
    cases hcol2
    subst he
    rw [dfFromRows_colNames]
    have hdne : dedupFirst fkVals ≠ [] := dedupFirst_ne_nil hne
    cases hd : dedupFirst fkVals with
    | nil => exact absurd hd hdne
    | cons v0 vrest =>
      refine mem_unionKeys ?_ (mem_keys_extensionRow_child_rows md mc C
        ⟨some fk, fkVals, ct.cols.filter (fun p => decide (p.1 ≠ fk))⟩ v0)
      exact List.mem_map_of_mem _ (List.mem_cons_self v0 vrest)
  have hgetE : ∀ c2 ∈ e.colNames, ∃ colE, e.getCol c2 = some colE ∧
      colE.length = e.index.length := by
    intro c2 hc2
    rcases Option.isSome_iff_exists.mp ((DF.mem_colNames_iff_getCol_isSome e c2).mp hc2)
      with ⟨colE, hcE⟩
    exact ⟨colE, hcE, hewf (c2, colE) (DF.getCol_mem_cols hcE)⟩
  rcases mergeChildStep_ok_elim hmerge with ⟨col, hcolm, hw'⟩
  rcases hgetE _ hcrname with ⟨colE, hcE, hcElen⟩
  have hmergedCol : (w.mergeLeftIndex e).getCol ("__" ++ C ++ "__child_rows") =
      some (w.index.map (DF.alignLookup e.index colE)) :=
    DF.merge_getCol_right w e _ colE hn (hdisj _ hcrname) hcE hcElen
  rw [hmergedCol] at hcolm
  cases hcolm
  constructor
  · rw [hw']
    unfold DF.cellPos
    rw [DF.getCol_setCol_self, Option.map_some']
    congr 1
    have hlen1 : p < (w.index.map (DF.alignLookup e.index colE)).length := by
      rw [List.length_map]
      exact hp
    rw [getD_map_lt _ fillna0 p hlen1 none none,
      getD_map_lt w.index (DF.alignLookup e.index colE) p hp none none,
      DF.alignLookup_not_mem e.index colE _ hvnot]
    rfl
  · intro c2 hc2 hcne
    rcases hgetE _ hc2 with ⟨colE2, hcE2, hcE2len⟩
    rw [hw']
    unfold DF.cellPos
    rw [DF.getCol_setCol_ne _ _ _ _ hcne,
      DF.merge_getCol_right w e _ colE2 hn (hdisj _ hc2) hcE2 hcE2len, Option.map_some']
    congr 1
    rw [getD_map_lt w.index (DF.alignLookup e.index colE2) p hp none none,
      DF.alignLookup_not_mem e.index colE2 _ hvnot]

end SDV

namespace SDV

/-! ### setIndexVals and resolveTable lemmas -/

theorem setIndexVals_ok_elim {df : DF} {name : String} {vals : List Cell} {df2 : DF}
    (h : df.setIndexVals name vals = .ok df2) :
    vals.length = df.nRows ∧ df2 = { df with index := vals, indexName := some name } := by
  unfold DF.setIndexVals at h
  by_cases hc : vals.length = df.nRows
  · rw [if_pos hc] at h
    simp only [Except.ok.injEq] at h
    exact ⟨hc, h.symm⟩
  · rw [if_neg hc] at h
    exact absurd h (by simp)

theorem resolveTable_nonempty (md : Metadata) (tables : List (String × DF)) (t : String)
    (h : tables ≠ []) :
    resolveTable md tables t = toExcept (dictGet tables t) (.keyError t) := by
  unfold resolveTable
  rw [if_neg]
  simpa using h

/-! ### loadTable independence -/

theorem getExtension_loadTable (md : Metadata) (lt : String → DF) (mc : ModelClass)
    (c : String) (ct : DF) (k : String) :
    getExtension { md with loadTable := lt } mc c ct k = getExtension md mc c ct k := rfl

theorem update_loadTable_foreignKey (md : Metadata) (lt : String → DF) :
    ({ md with loadTable := lt } : Metadata).foreignKey = md.foreignKey := rfl

theorem update_loadTable_primaryKey (md : Metadata) (lt : String → DF) :
    ({ md with loadTable := lt } : Metadata).primaryKey = md.primaryKey := rfl

theorem update_loadTable_children (md : Metadata) (lt : String → DF) :
    ({ md with loadTable := lt } : Metadata).children = md.children := rfl

theorem update_loadTable_transform (md : Metadata) (lt : String → DF) :
    ({ md with loadTable := lt } : Metadata).transform = md.transform := rfl

theorem cpaChildren_loadTable_congr (lt : String → DF)
    (rec1 rec2 : String → Option String → MState → Except Err (DF × MState))
    (md : Metadata) (mc : ModelClass) (pn : String)
    (hrec : ∀ c fk st, rec1 c fk st = rec2 c fk st) :
    ∀ (cs : List String) (ext : DF) (st : MState),
      cpaChildren rec1 { md with loadTable := lt } mc pn cs ext st =
        cpaChildren rec2 md mc pn cs ext st := by
  intro cs
  induction cs with
  | nil =>
    intro ext st
    rfl
  | cons c rest ih =>
    intro ext st
    simp only [cpaChildren, update_loadTable_foreignKey, getExtension_loadTable]
    rw [hrec c (some (md.foreignKey pn c)) st]
    cases rec2 c (some (md.foreignKey pn c)) st with
    | error er => rfl
    | ok r =>
      simp only [except_bind_ok]
      cases getExtension md mc c r.1 (md.foreignKey pn c) with
      | error er => rfl
      | ok e2 =>
        simp only [except_bind_ok]
        cases mergeChildStep c ext e2 with
        | error er => rfl
        | ok ext1 =>
          simp only [except_bind_ok]
          exact ih ext1 r.2

theorem cpa_loadTable_indep (md : Metadata) (lt : String → DF) (mc : ModelClass)
    (tables : List (String × DF)) (htbl : tables ≠ []) :
    ∀ (fuel : Nat) (T : String) (fk : Option String) (st : MState),
      cpa { md with loadTable := lt } mc fuel T tables fk st =
        cpa md mc fuel T tables fk st := by
  intro fuel
  induction fuel with
  | zero =>
    intro T fk st
    rfl
  | succ n ih =>
    intro T fk st
    simp only [cpa, update_loadTable_foreignKey, update_loadTable_primaryKey,
      update_loadTable_children, update_loadTable_transform,
      resolveTable_nonempty { md with loadTable := lt } tables T htbl,
      resolveTable_nonempty md tables T htbl]
    cases toExcept (dictGet tables T) (Err.keyError T) with
    | error er => rfl
    | ok table =>
      simp only [except_bind_ok]
      cases md.primaryKey T with
      | none => rfl
      | some pk =>
        simp only []
        cases table.getCol pk with
        | none => rfl
        | some pkCol =>
          simp only [toExcept, except_bind_ok]
          cases (md.transform T table).setIndexVals pk pkCol with
          | error er => rfl
          | ok exti =>
            simp only [except_bind_ok]
            rw [cpaChildren_loadTable_congr lt _ _ md mc T
              (fun c fk2 stc => ih c fk2 stc) (md.children T) exti
              { st with tableSizes := dictSet st.tableSizes T table.nRows }]

/-- C10: when the `tables` mapping is non-empty but lacks the requested
table, `cpa` raises `KeyError` for that table name; and with a non-empty
`tables` mapping the metadata's `load_table` is never consulted at all (any
`cpa` call computes the same result whatever `load_table` does), so a
partially populated mapping is never supplemented from the metadata store. -/
theorem cpa_c10_tables_key_error {md : Metadata} {mc : ModelClass} {fuel : Nat}
    {T : String} {tables : List (String × DF)} {fk : Option String} {st : MState}
    (lt : String → DF) (fuel2 : Nat) (T2 : String) (fk2 : Option String) (st2 : MState)
    (htbl : tables ≠ []) (hmiss : dictGet tables T = none) :
    cpa md mc (fuel + 1) T tables fk st = .error (.keyError T) ∧
    cpa { md with loadTable := lt } mc fuel2 T2 tables fk2 st2 =
      cpa md mc fuel2 T2 tables fk2 st2 := by
  constructor
  · simp only [cpa, resolveTable_nonempty md tables T htbl, hmiss, toExcept,
      except_bind_error]
  · exact cpa_loadTable_indep md lt mc tables htbl fuel2 T2 fk2 st2

/-! ### table_sizes tracking -/

theorem cpaChildren_sizes
    (rec : String → Option String → MState → Except Err (DF × MState))
    (md : Metadata) (mc : ModelClass) (pn : String) (tables : List (String × DF))
    (hrec : ∀ c fk stA d stB, rec c fk stA = .ok (d, stB) → ∀ u,
      dictGet stB.tableSizes u = dictGet stA.tableSizes u ∨
      ∃ raw2, resolveTable md tables u = .ok raw2 ∧
        dictGet stB.tableSizes u = some raw2.nRows) :
    ∀ (cs : List String) (ext : DF) (st : MState) (ext' : DF) (st' : MState),
      cpaChildren rec md mc pn cs ext st = .ok (ext', st') → ∀ u,
        dictGet st'.tableSizes u = dictGet st.tableSizes u ∨
        ∃ raw2, resolveTable md tables u = .ok raw2 ∧
          dictGet st'.tableSizes u = some raw2.nRows := by
  intro cs
  induction cs with
  | nil =>
    intro ext st ext' st' h u
    simp only [cpaChildren, Except.ok.injEq, Prod.mk.injEq] at h
    rw [← h.2]
    exact Or.inl rfl
  | cons c rest ih =>
    intro ext st ext' st' h u
    simp only [cpaChildren] at h
    cases hrec2 : rec c (some (md.foreignKey pn c)) st with
    | error er =>
      rw [hrec2] at h
      simp only [except_bind_error] at h
      exact absurd h (by simp)
    | ok r =>
      rw [hrec2, except_bind_ok] at h
      cases hext : getExtension md mc c r.1 (md.foreignKey pn c) with
      | error er =>
        rw [hext] at h
        simp only [except_bind_error] at h
        exact absurd h (by simp)
      | ok e2 =>
        rw [hext, except_bind_ok] at h
        cases hmerge : mergeChildStep c ext e2 with
        | error er =>
          rw [hmerge] at h
          simp only [except_bind_error] at h
          exact absurd h (by simp)
        | ok ext1 =>
          rw [hmerge, except_bind_ok] at h
          rcases ih ext1 r.2 ext' st' h u with hpres | hres
          · rcases hrec c _ st r.1 r.2 (by rw [hrec2]) u with hpres2 | hres2
            · exact Or.inl (hpres.trans hpres2)
            · exact Or.inr (by rw [hpres]; exact hres2)
          · exact Or.inr hres

theorem cpa_sizes (md : Metadata) (mc : ModelClass) (tables : List (String × DF)) :
    ∀ (fuel : Nat) (T : String) (fk : Option String) (st : MState) (ext : DF)
      (st' : MState), cpa md mc fuel T tables fk st = .ok (ext, st') →
      ((∀ u, dictGet st'.tableSizes u = dictGet st.tableSizes u ∨
        ∃ raw2, resolveTable md tables u = .ok raw2 ∧
          dictGet st'.tableSizes u = some raw2.nRows) ∧
       (∃ raw, resolveTable md tables T = .ok raw ∧
          dictGet st'.tableSizes T = some raw.nRows)) := by
  intro fuel
  induction fuel with
  | zero =>
    intro T fk st ext st' h
    exact absurd h (by simp [cpa_zero])
  | succ n ih =>
    intro T fk st ext st' h
    cases hpk : md.primaryKey T with
    | none =>
      rcases cpa_ok_pk_none hpk h with ⟨table, hres, hst, _⟩
      constructor
      · intro u
        by_cases hu : u = T
        · subst hu
          refine Or.inr ⟨table, hres, ?_⟩
          rw [hst]
          exact dictGet_dictSet_self _ _ _
        · rw [hst]
          exact Or.inl (dictGet_dictSet_ne _ _ _ _ hu)
      · refine ⟨table, hres, ?_⟩
        rw [hst]
        exact dictGet_dictSet_self _ _ _
    | some pk =>
      rcases cpa_ok_pk_some hpk h with
        ⟨table, pkCol, exti, r1, r2, hres, hpkcol, hsiv, hch, hst, _⟩
      have hchsizes := cpaChildren_sizes _ md mc T tables
        (fun c fk2 stA d stB hr u => ((ih c fk2 stA d stB hr).1 u))
        (md.children T) exti _ r1 r2 hch
      have hstsizes : st'.tableSizes = r2.tableSizes := by rw [hst]
      constructor
      · intro u
        rcases hchsizes u with hpres | hres2
        · by_cases hu : u = T
          · subst hu
            refine Or.inr ⟨table, hres, ?_⟩
            rw [hstsizes, hpres]
            exact dictGet_dictSet_self _ _ _
          · rw [hstsizes, hpres]
            exact Or.inl (dictGet_dictSet_ne _ _ _ _ hu)
        · rw [hstsizes]
          exact Or.inr hres2
      · rcases hchsizes T with hpres | ⟨raw2, hres2, hval⟩
        · refine ⟨table, hres, ?_⟩
          rw [hstsizes, hpres]
          exact dictGet_dictSet_self _ _ _
        · rw [hres] at hres2
          refine ⟨table, hres, ?_⟩
          rw [hstsizes, hval]
          injection hres2 with hres3
          rw [hres3]

/-- C7: after every `cpa` call on a table, `table_sizes[table_name]` equals
the row count of the raw table resolved in step 1 of `cpa` (before the
transform and before any extension is merged), for root and child calls
alike. -/
theorem cpa_c7_table_sizes {md : Metadata} {mc : ModelClass} {fuel : Nat} {T : String}
    {tables : List (String × DF)} {fk : Option String} {st : MState} {ext : DF}
    {st' : MState} {raw : DF}
    (hok : cpa md mc fuel T tables fk st = .ok (ext, st'))
    (hres : resolveTable md tables T = .ok raw) :
    dictGet st'.tableSizes T = some raw.nRows := by
  rcases (cpa_sizes md mc tables fuel T fk st ext st' hok).2 with ⟨raw2, hres2, hval⟩
  rw [hres] at hres2
  injection hres2 with hres3
  rw [hval, hres3]

/-- C8: on a child call (a `foreign_key` argument is supplied), the frame
returned by `cpa` carries the foreign-key column copied verbatim, row for
row, from the raw table resolved for that call (hypotheses: the raw table is
well-formed with the default range index, and the transform collaborator
preserves the index of its input). -/
theorem cpa_c8_foreign_key_verbatim {md : Metadata} {mc : ModelClass} {fuel : Nat}
    {T : String} {tables : List (String × DF)} {fkc : String} {st : MState} {ext : DF}
    {st' : MState} {raw : DF}
    (hok : cpa md mc fuel T tables (some fkc) st = .ok (ext, st'))
    (hres : resolveTable md tables T = .ok raw)
    (hwf : raw.WF)
    (hridx : raw.index = DF.defaultRange raw.nRows)
    (htr : ∀ n t, (md.transform n t).index = t.index) :
    ∃ fkVals, raw.getCol fkc = some fkVals ∧ ext.getCol fkc = some fkVals := by
  have hnodup : raw.index.Nodup := by
    rw [hridx]
    exact DF.defaultRange_nodup raw.nRows
  rcases cpa_ok_fuel_succ hok with ⟨fuel0, rfl⟩
  cases hpk : md.primaryKey T with
  | some pk =>
    rcases cpa_ok_pk_some hpk hok with
      ⟨table, pkCol, exti, r1, r2, hres2, hpkcol, hsiv, hch, hst, hfk⟩
    rw [hres] at hres2
    injection hres2 with hres3
    subst hres3
    rcases hfk with ⟨fkCol, hfkcol, hext⟩
    have hfklen : fkCol.length = raw.index.length :=
      hwf (fkc, fkCol) (DF.getCol_mem_cols hfkcol)
    have hr1idx : r1.index = pkCol :=
      (cpaChildren_ok_facts _ md mc T (md.children T) exti _ r1 r2 hch).1.trans
        (by rw [(setIndexVals_ok_elim hsiv).2])
    have hpklen : pkCol.length = raw.nRows :=
      hwf (pk, pkCol) (DF.getCol_mem_cols hpkcol)
    have hresetidx : r1.resetIndex.index = raw.index := by
      rw [DF.resetIndex_index, hridx]
      unfold DF.nRows
      rw [hr1idx, hpklen]
      rfl
    refine ⟨fkCol, hfkcol, ?_⟩
    rw [hext]
    unfold DF.assignAligned
    rw [DF.getCol_setCol_self]
    congr 1
    rw [hresetidx]
    exact DF.map_alignLookup_self raw.index fkCol hfklen hnodup
  | none =>
    rcases cpa_ok_pk_none hpk hok with ⟨table, hres2, hst, hfk⟩
    rw [hres] at hres2
    injection hres2 with hres3
    subst hres3
    rcases hfk with ⟨fkCol, hfkcol, hext⟩
    have hfklen : fkCol.length = raw.index.length :=
      hwf (fkc, fkCol) (DF.getCol_mem_cols hfkcol)
    refine ⟨fkCol, hfkcol, ?_⟩
    rw [hext]
    unfold DF.assignAligned
    rw [DF.getCol_setCol_self]
    congr 1
    rw [htr T raw]
    exact DF.map_alignLookup_self raw.index fkCol hfklen hnodup

end SDV

namespace SDV

theorem getExtension_colNames_param {md : Metadata} {mc : ModelClass} {C : String}
    {ct : DF} {fk : String} {e : DF} {fkVals : List Cell}
    (hok : getExtension md mc C ct fk = .ok e)
    (hcol : ct.getCol fk = some fkVals) :
    ∀ v ∈ dedupFirst fkVals,
      ∀ k ∈ (mc.getParams (subTableFor md C
          ⟨some fk, fkVals, ct.cols.filter (fun p => decide (p.1 ≠ fk))⟩ v)).map Prod.fst,
        ("__" ++ C ++ "__" ++ k) ∈ e.colNames := by
  rcases getExtension_ok hok with ⟨fkVals2, hcol2, he⟩
  rw [hcol] at hcol2
  cases hcol2
  subst he
  intro v hv k hk
  rw [dfFromRows_colNames]
  exact mem_unionKeys (List.mem_map_of_mem _ hv)
    (mem_keys_extensionRow_param md mc C _ v k hk)

theorem mem_colNames_resetIndex {df : DF} {a : String} (h : a ∈ df.colNames) :
    a ∈ df.resetIndex.colNames := by
  rw [DF.resetIndex_colNames]
  exact List.mem_cons_of_mem _ h

/-- C1: for a table declaring primary key `P`, a successful `cpa` call
returns a frame with the same row count as the raw table, with `P` present
as an ordinary column, and, for each declared child `C`, with the column
`__C__child_rows` and a column `__C__<param>` for every parameter name the
per-parent sub-models emit. -/
theorem cpa_c1_primary_key_shape {md : Metadata} {mc : ModelClass} {fuel : Nat}
    {T : String} {tables : List (String × DF)} {fk : Option String} {st : MState}
    {ext : DF} {st' : MState} {raw : DF} {P : String}
    (hok : cpa md mc fuel T tables fk st = .ok (ext, st'))
    (hres : resolveTable md tables T = .ok raw)
    (hwf : raw.WF)
    (hpk : md.primaryKey T = some P) :
    ext.nRows = raw.nRows ∧ P ∈ ext.colNames ∧
    ∀ C ∈ md.children T, ∃ n ct e stA stB,
      cpa md mc n C tables (some (md.foreignKey T C)) stA = .ok (ct, stB) ∧
      getExtension md mc C ct (md.foreignKey T C) = .ok e ∧
      ("__" ++ C ++ "__child_rows") ∈ ext.colNames ∧
      (∀ a ∈ e.colNames, a ∈ ext.colNames) ∧
      ∀ fkVals2, ct.getCol (md.foreignKey T C) = some fkVals2 →
        ∀ v ∈ dedupFirst fkVals2,
          ∀ k ∈ (mc.getParams (subTableFor md C
              ⟨some (md.foreignKey T C), fkVals2,
               ct.cols.filter (fun p => decide (p.1 ≠ md.foreignKey T C))⟩ v)).map Prod.fst,
            ("__" ++ C ++ "__" ++ k) ∈ ext.colNames := by
  rcases cpa_ok_fuel_succ hok with ⟨fuel0, rfl⟩
  rcases cpa_ok_pk_some hpk hok with
    ⟨table, pkCol, exti, r1, r2, hres2, hpkcol, hsiv, hch, hst, hfk⟩
  rw [hres] at hres2
  injection hres2 with hres3
  subst hres3
  rcases cpaChildren_ok_facts _ md mc T (md.children T) exti _ r1 r2 hch with
    ⟨hidx, hiname, _, hchildren⟩
  rcases setIndexVals_ok_elim hsiv with ⟨hpklen2, hexti⟩
  have hr1idx : r1.index = pkCol := by
    rw [hidx, hexti]
  have hr1name : r1.indexName = some P := by
    rw [hiname, hexti]
  have hpklen : pkCol.length = raw.nRows :=
    hwf (P, pkCol) (DF.getCol_mem_cols hpkcol)
  have hbase_nRows : r1.resetIndex.nRows = raw.nRows := by
    rw [DF.resetIndex_nRows]
    unfold DF.nRows
    rw [hr1idx, hpklen]
    rfl
  have hbase_mem : ∀ a ∈ r1.colNames, a ∈ r1.resetIndex.colNames :=
    fun a ha => mem_colNames_resetIndex ha
  have hbase_P : P ∈ r1.resetIndex.colNames := by
    rw [DF.resetIndex_colNames, hr1name]
    exact List.mem_cons_self _ _
  have hext_nRows : ext.nRows = raw.nRows := by
    cases fk with
    | none =>
      rw [hfk]
      exact hbase_nRows
    | some fkc =>
      rcases hfk with ⟨fkCol, _, hext2⟩
      rw [hext2, DF.assignAligned_nRows]
      exact hbase_nRows
  have hext_mem : ∀ a ∈ r1.resetIndex.colNames, a ∈ ext.colNames := by
    cases fk with
    | none =>
      rw [hfk]
      exact fun a ha => ha
    | some fkc =>
      rcases hfk with ⟨fkCol, _, hext2⟩
      intro a ha
      rw [hext2, DF.mem_colNames_assignAligned]
      exact Or.inr ha
  refine ⟨hext_nRows, hext_mem P hbase_P, ?_⟩
  intro C hC
  rcases hchildren C hC with ⟨ct, e, stA, stB, hrec, hext3, hcr, hecols⟩
  refine ⟨fuel0, ct, e, stA, stB, hrec, hext3,
    hext_mem _ (hbase_mem _ hcr),
    fun a ha => hext_mem _ (hbase_mem _ (hecols a ha)), ?_⟩
  intro fkVals2 hcol2 v hv k hk
  exact hext_mem _ (hbase_mem _ (hecols _
    (getExtension_colNames_param hext3 hcol2 v hv k hk)))

end SDV

namespace SDV

/-! ### Post-order structure of the fit log -/

/-- Every entry of the trace is preceded by an entry for each of its declared
children: parents are fit only after all their children. -/
def ChildrenBefore (md : Metadata) (Δ : List String) : Prop :=
  ∀ (j : Nat) (u : String), Δ[j]? = some u →
    ∀ c ∈ md.children u, ∃ i : Nat, i < j ∧ Δ[i]? = some c

theorem childrenBefore_append {md : Metadata} {Δ1 Δ2 : List String}
    (h1 : ChildrenBefore md Δ1) (h2 : ChildrenBefore md Δ2) :
    ChildrenBefore md (Δ1 ++ Δ2) := by
  intro j u hj c hc
  by_cases hlt : j < Δ1.length
  · rw [List.getElem?_append_left hlt] at hj
    rcases h1 j u hj c hc with ⟨i, hilt, hi⟩
    have hi2 : i < Δ1.length := lt_trans hilt hlt
    exact ⟨i, hilt, by rw [List.getElem?_append_left hi2]; exact hi⟩
  · push_neg at hlt
    rw [List.getElem?_append_right hlt] at hj
    rcases h2 _ u hj c hc with ⟨i, hilt, hi⟩
    refine ⟨Δ1.length + i, by omega, ?_⟩
    rw [List.getElem?_append_right (by omega)]
    rw [show Δ1.length + i - Δ1.length = i by omega]
    exact hi

theorem childrenBefore_snoc {md : Metadata} {Δ : List String} {t : String}
    (h : ChildrenBefore md Δ) (hc : ∀ c ∈ md.children t, c ∈ Δ) :
    ChildrenBefore md (Δ ++ [t]) := by
  intro j u hj c hcc
  by_cases hlt : j < Δ.length
  · rw [List.getElem?_append_left hlt] at hj
    rcases h j u hj c hcc with ⟨i, hilt, hi⟩
    have hi2 : i < Δ.length := lt_trans hilt hlt
    exact ⟨i, hilt, by rw [List.getElem?_append_left hi2]; exact hi⟩
  · push_neg at hlt
    rw [List.getElem?_append_right hlt] at hj
    have hj0 : j - Δ.length = 0 := by
      cases hd : j - Δ.length with
      | zero => rfl
      | succ m =>
        rw [hd] at hj
        simp at hj
    rw [hj0] at hj
    simp only [List.getElem?_cons_zero, Option.some.injEq] at hj
    subst hj
    rcases List.mem_iff_getElem?.mp (hc c hcc) with ⟨i, hi⟩
    have hi2 : i < Δ.length := by
      rcases List.getElem?_eq_some_iff.mp hi with ⟨hlen, _⟩
      exact hlen
    refine ⟨i, by omega, ?_⟩
    rw [List.getElem?_append_left hi2]
    exact hi

theorem childrenBefore_nil (md : Metadata) : ChildrenBefore md [] := by
  intro j u hj
  simp at hj

theorem cpaChildren_log
    (rec : String → Option String → MState → Except Err (DF × MState))
    (md : Metadata) (mc : ModelClass) (pn : String)
    (hrec : ∀ c fk stA d stB, rec c fk stA = .ok (d, stB) →
      ∃ Δ, stB.log = stA.log ++ (Δ ++ [c]) ∧ ChildrenBefore md (Δ ++ [c])) :
    ∀ (cs : List String) (ext : DF) (st : MState) (ext' : DF) (st' : MState),
      cpaChildren rec md mc pn cs ext st = .ok (ext', st') →
      ∃ Δ, st'.log = st.log ++ Δ ∧ ChildrenBefore md Δ ∧ ∀ c ∈ cs, c ∈ Δ := by
  intro cs
  induction cs with
  | nil =>
    intro ext st ext' st' h
    simp only [cpaChildren, Except.ok.injEq, Prod.mk.injEq] at h
    refine ⟨[], by rw [← h.2]; simp, childrenBefore_nil md, ?_⟩
    intro c hc
    cases hc
  | cons c rest ih =>
    intro ext st ext' st' h
    simp only [cpaChildren] at h
    cases hrec2 : rec c (some (md.foreignKey pn c)) st with
    | error er =>
      rw [hrec2] at h
      simp only [except_bind_error] at h
      exact absurd h (by simp)
    | ok r =>
      rw [hrec2, except_bind_ok] at h
      cases hext : getExtension md mc c r.1 (md.foreignKey pn c) with
      | error er =>
        rw [hext] at h
        simp only [except_bind_error] at h
        exact absurd h (by simp)
      | ok e2 =>
        rw [hext, except_bind_ok] at h
        cases hmerge : mergeChildStep c ext e2 with
        | error er =>
          rw [hmerge] at h
          simp only [except_bind_error] at h
          exact absurd h (by simp)
        | ok ext1 =>
          rw [hmerge, except_bind_ok] at h
          rcases hrec c _ st r.1 r.2 (by rw [hrec2]) with ⟨Δ1, hlog1, hcb1⟩
          rcases ih ext1 r.2 ext' st' h with ⟨Δ2, hlog2, hcb2, hmem2⟩
          refine ⟨(Δ1 ++ [c]) ++ Δ2, ?_, childrenBefore_append hcb1 hcb2, ?_⟩
          · rw [hlog2, hlog1, List.append_assoc]
          · intro c2 hc2
            rcases List.mem_cons.mp hc2 with hc2 | hc2
            · subst hc2
              exact List.mem_append_left _ (List.mem_append_right _ (List.mem_cons_self _ _))
            · exact List.mem_append_right _ (hmem2 c2 hc2)

theorem cpa_log (md : Metadata) (mc : ModelClass) (tables : List (String × DF))
    (hwfmd : ∀ u, md.children u ≠ [] → md.primaryKey u ≠ none) :
    ∀ (fuel : Nat) (T : String) (fk : Option String) (st : MState) (ext : DF)
      (st' : MState), cpa md mc fuel T tables fk st = .ok (ext, st') →
      ∃ Δ, st'.log = st.log ++ (Δ ++ [T]) ∧ ChildrenBefore md (Δ ++ [T]) ∧
        ∀ c ∈ md.children T, c ∈ Δ := by
  intro fuel
  induction fuel with
  | zero =>
    intro T fk st ext st' h
    exact absurd h (by simp [cpa_zero])
  | succ n ih =>
    intro T fk st ext st' h
    cases hpk : md.primaryKey T with
    | none =>
      have hchn : md.children T = [] := by
        by_contra hne
        exact (hwfmd T hne) hpk
      rcases cpa_ok_pk_none hpk h with ⟨table, _, hst, _⟩
      refine ⟨[], by rw [hst]; simp, ?_, ?_⟩
      · intro j u hj c hc
        cases j with
        | zero =>
          simp only [List.nil_append, List.getElem?_cons_zero, Option.some.injEq] at hj
          subst hj
          rw [hchn] at hc
          cases hc
        | succ m => simp at hj
      · intro c hc
        rw [hchn] at hc
        cases hc
    | some pk =>
      rcases cpa_ok_pk_some hpk h with
        ⟨table, pkCol, exti, r1, r2, hres, hpkcol, hsiv, hch, hst, _⟩
      rcases cpaChildren_log _ md mc T
        (fun c fk2 stA d stB hr => by
          rcases ih c fk2 stA d stB hr with ⟨Δ, a, b, _⟩
          exact ⟨Δ, a, b⟩)
        (md.children T) exti _ r1 r2 hch with ⟨Δ, hlog, hcb, hmem⟩
      refine ⟨Δ, ?_, childrenBefore_snoc hcb hmem, hmem⟩
      rw [hst]
      show r2.log ++ [T] = st.log ++ (Δ ++ [T])
      rw [hlog]
      show st.log ++ Δ ++ [T] = _
      rw [List.append_assoc]

/-- C4: the ghost trace `log` records each `self.models[name] = model` store
in execution order.  On every successful `cpa` call over well-formed
metadata (a table with children declares a primary key), the events appended
by the call end with the table itself, every declared child of the table is
fit somewhere before that final event, and globally every fit event in the
appended trace is preceded by fit events for all declared children of its
table — the strict child-before-parent post-order of the registry. -/
theorem cpa_c4_postorder {md : Metadata} {mc : ModelClass} {fuel : Nat} {T : String}
    {tables : List (String × DF)} {fk : Option String} {st : MState} {ext : DF}
    {st' : MState}
    (hwfmd : ∀ u, md.children u ≠ [] → md.primaryKey u ≠ none)
    (hok : cpa md mc fuel T tables fk st = .ok (ext, st')) :
    ∃ Δ, st'.log = st.log ++ (Δ ++ [T]) ∧
      (∀ c ∈ md.children T, c ∈ Δ) ∧
      ChildrenBefore md (Δ ++ [T]) := by
  rcases cpa_log md mc tables hwfmd fuel T fk st ext st' hok with ⟨Δ, h1, h2, h3⟩
  exact ⟨Δ, h1, h3, h2⟩

end SDV

namespace SDV

/-! ### Reachability and the models registry -/

theorem cpaChildren_cons_ok_elim
    {rec : String → Option String → MState → Except Err (DF × MState)}
    {md : Metadata} {mc : ModelClass} {pn c : String} {rest : List String}
    {ext : DF} {st : MState} {out : DF × MState}
    (h : cpaChildren rec md mc pn (c :: rest) ext st = .ok out) :
    ∃ r e2 ext1, rec c (some (md.foreignKey pn c)) st = .ok r ∧
      getExtension md mc c r.1 (md.foreignKey pn c) = .ok e2 ∧
      mergeChildStep c ext e2 = .ok ext1 ∧
      cpaChildren rec md mc pn rest ext1 r.2 = .ok out := by
  simp only [cpaChildren] at h
  cases hrec : rec c (some (md.foreignKey pn c)) st with
  | error er =>
    rw [hrec] at h
    simp only [except_bind_error] at h
    exact absurd h (by simp)
  | ok r =>
    rw [hrec, except_bind_ok] at h
    cases hext : getExtension md mc c r.1 (md.foreignKey pn c) with
    | error er =>
      rw [hext] at h
      simp only [except_bind_error] at h
      exact absurd h (by simp)
    | ok e2 =>
      rw [hext, except_bind_ok] at h
      cases hmerge : mergeChildStep c ext e2 with
      | error er =>
        rw [hmerge] at h
        simp only [except_bind_error] at h
        exact absurd h (by simp)
      | ok ext1 =>
        rw [hmerge, except_bind_ok] at h
        exact ⟨r, e2, ext1, rfl, hext, hmerge, h⟩

/-- Tables visited by `cpa` within the given recursion depth: the table
itself and, recursively, the declared children (the root-or-descendant set
of the spec). -/
def reach (md : Metadata) : Nat → String → List String
  | 0, _ => []
  | fuel + 1, t => t :: (md.children t).flatMap (reach md fuel)

theorem cpaChildren_models
    (rec : String → Option String → MState → Except Err (DF × MState))
    (md : Metadata) (mc : ModelClass) (pn : String) (n : Nat)
    (hrec : ∀ c fk stA d stB, rec c fk stA = .ok (d, stB) → ∀ u,
      ((dictGet stB.models u).isSome ↔
        (dictGet stA.models u).isSome ∨ u ∈ reach md n c)) :
    ∀ (cs : List String) (ext : DF) (st : MState) (ext' : DF) (st' : MState),
      cpaChildren rec md mc pn cs ext st = .ok (ext', st') → ∀ u,
        ((dictGet st'.models u).isSome ↔
          (dictGet st.models u).isSome ∨ ∃ c ∈ cs, u ∈ reach md n c) := by
  intro cs
  induction cs with
  | nil =>
    intro ext st ext' st' h u
    simp only [cpaChildren, Except.ok.injEq, Prod.mk.injEq] at h
    rw [← h.2]
    simp
  | cons c rest ih =>
    intro ext st ext' st' h u
    rcases cpaChildren_cons_ok_elim h with ⟨r, e2, ext1, hrec2, _, _, hrest⟩
    have h1 := ih ext1 r.2 ext' st' hrest u
    have h2 := hrec c _ st r.1 r.2 (by rw [hrec2]) u
    rw [h1, h2]
    constructor
    · rintro ((hs | hr) | ⟨c2, hc2, hu⟩)
      · exact Or.inl hs
      · exact Or.inr ⟨c, List.mem_cons_self c rest, hr⟩
      · exact Or.inr ⟨c2, List.mem_cons_of_mem c hc2, hu⟩
    · rintro (hs | ⟨c2, hc2, hu⟩)
      · exact Or.inl (Or.inl hs)
      · rcases List.mem_cons.mp hc2 with hc2 | hc2
        · subst hc2
          exact Or.inl (Or.inr hu)
        · exact Or.inr ⟨c2, hc2, hu⟩

theorem cpa_models (md : Metadata) (mc : ModelClass) (tables : List (String × DF))
    (hwfmd : ∀ u, md.children u ≠ [] → md.primaryKey u ≠ none) :
    ∀ (fuel : Nat) (T : String) (fk : Option String) (st : MState) (ext : DF)
      (st' : MState), cpa md mc fuel T tables fk st = .ok (ext, st') → ∀ u,
        ((dictGet st'.models u).isSome ↔
          (dictGet st.models u).isSome ∨ u ∈ reach md fuel T) := by
  intro fuel
  induction fuel with
  | zero =>
    intro T fk st ext st' h
    exact absurd h (by simp [cpa_zero])
  | succ n ih =>
    intro T fk st ext st' h u
    cases hpk : md.primaryKey T with
    | none =>
      have hchn : md.children T = [] := by
        by_contra hne
        exact (hwfmd T hne) hpk
      rcases cpa_ok_pk_none hpk h with ⟨table, _, hst, _⟩
      rw [hst]
      show (dictGet (dictSet st.models T _) u).isSome ↔ _
      rw [dictGet_isSome_dictSet]
      simp only [reach, hchn, List.flatMap_nil, List.mem_singleton]
      tauto
    | some pk =>
      rcases cpa_ok_pk_some hpk h with
        ⟨table, pkCol, exti, r1, r2, hres, hpkcol, hsiv, hch, hst, _⟩
      have hc := cpaChildren_models _ md mc T n
        (fun c fk2 stA d stB hr => ih c fk2 stA d stB hr)
        (md.children T) exti _ r1 r2 hch u
      rw [hst]
      show (dictGet (dictSet r2.models T r1) u).isSome ↔ _
      rw [dictGet_isSome_dictSet, hc]
      simp only [reach, List.mem_cons, List.mem_flatMap]
      constructor
      · rintro (he | (hs | ⟨c2, hc2, hu⟩))
        · exact Or.inr (Or.inl he)
        · exact Or.inl hs
        · exact Or.inr (Or.inr ⟨c2, hc2, hu⟩)
      · rintro (hs | (he | ⟨c2, hc2, hu⟩))
        · exact Or.inr (Or.inl hs)
        · exact Or.inl he
        · exact Or.inr (Or.inr ⟨c2, hc2, hu⟩)

theorem cpaChildren_models_nodup
    (rec : String → Option String → MState → Except Err (DF × MState))
    (md : Metadata) (mc : ModelClass) (pn : String)
    (hrec : ∀ c fk stA d stB, rec c fk stA = .ok (d, stB) →
      (stA.models.map Prod.fst).Nodup → (stB.models.map Prod.fst).Nodup) :
    ∀ (cs : List String) (ext : DF) (st : MState) (ext' : DF) (st' : MState),
      cpaChildren rec md mc pn cs ext st = .ok (ext', st') →
      (st.models.map Prod.fst).Nodup → (st'.models.map Prod.fst).Nodup := by
  intro cs
  induction cs with
  | nil =>
    intro ext st ext' st' h hn
    simp only [cpaChildren, Except.ok.injEq, Prod.mk.injEq] at h
    rw [← h.2]
    exact hn
  | cons c rest ih =>
    intro ext st ext' st' h hn
    rcases cpaChildren_cons_ok_elim h with ⟨r, e2, ext1, hrec2, _, _, hrest⟩
    exact ih ext1 r.2 ext' st' hrest (hrec c _ st r.1 r.2 (by rw [hrec2]) hn)

theorem cpa_models_nodup (md : Metadata) (mc : ModelClass)
    (tables : List (String × DF)) :
    ∀ (fuel : Nat) (T : String) (fk : Option String) (st : MState) (ext : DF)
      (st' : MState), cpa md mc fuel T tables fk st = .ok (ext, st') →
      (st.models.map Prod.fst).Nodup → (st'.models.map Prod.fst).Nodup := by
  intro fuel
  induction fuel with
  | zero =>
    intro T fk st ext st' h
    exact absurd h (by simp [cpa_zero])
  | succ n ih =>
    intro T fk st ext st' h hn
    cases hpk : md.primaryKey T with
    | none =>
      rcases cpa_ok_pk_none hpk h with ⟨table, _, hst, _⟩
      rw [hst]
      exact keys_dictSet_nodup _ _ _ hn
    | some pk =>
      rcases cpa_ok_pk_some hpk h with
        ⟨table, pkCol, exti, r1, r2, hres, hpkcol, hsiv, hch, hst, _⟩
      have hr2 := cpaChildren_models_nodup _ md mc T
        (fun c fk2 stA d stB hr => ih c fk2 stA d stB hr)
        (md.children T) exti _ r1 r2 hch hn
      rw [hst]
      exact keys_dictSet_nodup _ _ _ hr2

/-! ### model_database lemmas -/

theorem modelDatabaseGo_eq_roots_fold (md : Metadata) (mc : ModelClass) (fuel : Nat)
    (tables : List (String × DF)) :
    ∀ (lst : List String) (st : MState),
      modelDatabaseGo md mc fuel tables lst st =
        (lst.filter (fun t => (md.parents t).isEmpty)).foldlM
          (fun s t => (cpa md mc fuel t tables none s).map Prod.snd) st := by
  intro lst
  induction lst with
  | nil =>
    intro st
    rfl
  | cons t rest ih =>
    intro st
    rw [List.filter_cons]
    by_cases hpar : (md.parents t).isEmpty = true
    · simp only [modelDatabaseGo, hpar, if_true, List.foldlM_cons]
      cases cpa md mc fuel t tables none st with
      | error er => rfl
      | ok r =>
        simp only [except_bind_ok, Except.map, except_bind_ok]
        exact ih r.2
    · simp only [modelDatabaseGo, hpar, if_false, Bool.false_eq_true]
      exact ih st

theorem modelDatabaseGo_models (md : Metadata) (mc : ModelClass) (fuel : Nat)
    (tables : List (String × DF))
    (hcpa : ∀ T st d st2, cpa md mc fuel T tables none st = .ok (d, st2) → ∀ u,
      ((dictGet st2.models u).isSome ↔
        (dictGet st.models u).isSome ∨ u ∈ reach md fuel T)) :
    ∀ (lst : List String) (st st' : MState),
      modelDatabaseGo md mc fuel tables lst st = .ok st' → ∀ u,
        ((dictGet st'.models u).isSome ↔ (dictGet st.models u).isSome ∨
          ∃ t ∈ lst, (md.parents t).isEmpty ∧ u ∈ reach md fuel t) := by
  intro lst
  induction lst with
  | nil =>
    intro st st' h u
    simp only [modelDatabaseGo, Except.ok.injEq] at h
    rw [← h]
    simp
  | cons t rest ih =>
    intro st st' h u
    by_cases hpar : (md.parents t).isEmpty = true
    · simp only [modelDatabaseGo, hpar, if_true] at h
      cases hcp : cpa md mc fuel t tables none st with
      | error er =>
        rw [hcp] at h
        simp only [except_bind_error] at h
        exact absurd h (by simp)
      | ok r =>
        rw [hcp, except_bind_ok] at h
        have h1 := ih r.2 st' h u
        have h2 := hcpa t st r.1 r.2 (by rw [hcp]) u
        rw [h1, h2]
        constructor
        · rintro ((hs | hr) | ⟨t2, ht2, hp2, hu⟩)
          · exact Or.inl hs
          · exact Or.inr ⟨t, List.mem_cons_self t rest, hpar, hr⟩
          · exact Or.inr ⟨t2, List.mem_cons_of_mem t ht2, hp2, hu⟩
        · rintro (hs | ⟨t2, ht2, hp2, hu⟩)
          · exact Or.inl (Or.inl hs)
          · rcases List.mem_cons.mp ht2 with ht2 | ht2
            · subst ht2
              exact Or.inl (Or.inr hu)
            · exact Or.inr ⟨t2, ht2, hp2, hu⟩
    · simp only [modelDatabaseGo, hpar, if_false, Bool.false_eq_true] at h
      rw [ih st st' h u]
      constructor
      · rintro (hs | ⟨t2, ht2, hp2, hu⟩)
        · exact Or.inl hs
        · exact Or.inr ⟨t2, List.mem_cons_of_mem t ht2, hp2, hu⟩
      · rintro (hs | ⟨t2, ht2, hp2, hu⟩)
        · exact Or.inl hs
        · rcases List.mem_cons.mp ht2 with ht2 | ht2
          · subst ht2
            exact absurd hp2 (by simpa using hpar)
          · exact Or.inr ⟨t2, ht2, hp2, hu⟩

theorem modelDatabaseGo_nodup (md : Metadata) (mc : ModelClass) (fuel : Nat)
    (tables : List (String × DF)) :
    ∀ (lst : List String) (st st' : MState),
      modelDatabaseGo md mc fuel tables lst st = .ok st' →
      (st.models.map Prod.fst).Nodup → (st'.models.map Prod.fst).Nodup := by
  intro lst
  induction lst with
  | nil =>
    intro st st' h hn
    simp only [modelDatabaseGo, Except.ok.injEq] at h
    rw [← h]
    exact hn
  | cons t rest ih =>
    intro st st' h hn
    by_cases hpar : (md.parents t).isEmpty = true
    · simp only [modelDatabaseGo, hpar, if_true] at h
      cases hcp : cpa md mc fuel t tables none st with
      | error er =>
        rw [hcp] at h
        simp only [except_bind_error] at h
        exact absurd h (by simp)
      | ok r =>
        rw [hcp, except_bind_ok] at h
        exact ih r.2 st' h
          (cpa_models_nodup md mc tables fuel t none st r.1 r.2 (by rw [hcp]) hn)
    · simp only [modelDatabaseGo, hpar, if_false, Bool.false_eq_true] at h
      exact ih st st' h hn

/-- C5: `model_database` is exactly a fold of `cpa` over the tables without
parents, in the schema's declared order, discarding each returned frame and
producing only state; from a fresh `Modeler` state, the resulting registry
holds a fitted model precisely for the tables reachable as a root or a
descendant of a root (within the recursion depth), each exactly once
(no duplicate keys). -/
theorem modelDatabase_c5_roots {md : Metadata} {mc : ModelClass} {fuel : Nat}
    {tables : List (String × DF)} {st' : MState}
    (hwfmd : ∀ u, md.children u ≠ [] → md.primaryKey u ≠ none)
    (hok : modelDatabase md mc fuel tables st0 = .ok st') :
    (modelDatabase md mc fuel tables st0 =
      (md.tables.filter (fun t => (md.parents t).isEmpty)).foldlM
        (fun s t => (cpa md mc fuel t tables none s).map Prod.snd) st0) ∧
    (∀ u, (dictGet st'.models u).isSome ↔
      ∃ t ∈ md.tables, (md.parents t).isEmpty ∧ u ∈ reach md fuel t) ∧
    (st'.models.map Prod.fst).Nodup := by
  refine ⟨modelDatabaseGo_eq_roots_fold md mc fuel tables md.tables st0, ?_, ?_⟩
  · intro u
    have h := modelDatabaseGo_models md mc fuel tables
      (fun T st d st2 hcp u2 => cpa_models md mc tables hwfmd fuel T none st d st2 hcp u2)
      md.tables st0 st' hok u
    rw [h]
    simp [st0, dictGet]
  · exact modelDatabaseGo_nodup md mc fuel tables md.tables st0 st' hok (by simp [st0])

end SDV

namespace SDV

/-! ### State deltas: cpa writes its registries independently of their
previous contents -/

/-- Apply a sequence of dictionary writes in order. -/
def applyUpds {α : Type} (u : List (String × α)) (m : List (String × α)) :
    List (String × α) :=
  u.foldl (fun acc p => dictSet acc p.1 p.2) m

/-- The last write to `k` in the sequence, if any. -/
def lastUpd {α : Type} : List (String × α) → String → Option α
  | [], _ => none
  | p :: rest, k =>
    match lastUpd rest k with
    | some v => some v
    | none => if p.1 = k then some p.2 else none

theorem applyUpds_nil {α : Type} (m : List (String × α)) : applyUpds [] m = m := rfl

theorem applyUpds_cons {α : Type} (p : String × α) (u : List (String × α))
    (m : List (String × α)) : applyUpds (p :: u) m = applyUpds u (dictSet m p.1 p.2) := rfl

theorem applyUpds_append {α : Type} (u1 u2 m : List (String × α)) :
    applyUpds (u1 ++ u2) m = applyUpds u2 (applyUpds u1 m) := by
  unfold applyUpds
  rw [List.foldl_append]

theorem dictGet_applyUpds {α : Type} (u : List (String × α)) :
    ∀ (m : List (String × α)) (k : String),
      dictGet (applyUpds u m) k =
        match lastUpd u k with
        | some v => some v
        | none => dictGet m k := by
  induction u with
  | nil =>
    intro m k
    rfl
  | cons p u ih =>
    intro m k
    rw [applyUpds_cons, ih]
    cases hl : lastUpd u k with
    | some v => simp [lastUpd, hl]
    | none =>
      simp only [lastUpd, hl]
      by_cases hp : p.1 = k
      · rw [if_pos hp, ← hp, dictGet_dictSet_self]
      · rw [if_neg hp, dictGet_dictSet_ne m p.1 k p.2 (fun hh => hp hh.symm)]

theorem dictGet_applyUpds_idem {α : Type} (u m : List (String × α)) (k : String) :
    dictGet (applyUpds u (applyUpds u m)) k = dictGet (applyUpds u m) k := by
  rw [dictGet_applyUpds, dictGet_applyUpds]
  cases hl : lastUpd u k with
  | some v => rfl
  | none => rfl

theorem cpaChildren_G
    (rec : String → Option String → MState → Except Err (DF × MState))
    (md : Metadata) (mc : ModelClass) (pn : String)
    (hrec : ∀ c fk stA d stB, rec c fk stA = .ok (d, stB) →
      ∃ Δm Δs Δl, ∀ st2 : MState, rec c fk st2 =
        .ok (d, ⟨applyUpds Δm st2.models, applyUpds Δs st2.tableSizes,
                 st2.log ++ Δl⟩)) :
    ∀ (cs : List String) (ext : DF) (stA : MState) (ext' : DF) (stA' : MState),
      cpaChildren rec md mc pn cs ext stA = .ok (ext', stA') →
      ∃ Δm Δs Δl, ∀ st2 : MState, cpaChildren rec md mc pn cs ext st2 =
        .ok (ext', ⟨applyUpds Δm st2.models, applyUpds Δs st2.tableSizes,
                    st2.log ++ Δl⟩) := by
  intro cs
  induction cs with
  | nil =>
    intro ext stA ext' stA' h
    simp only [cpaChildren, Except.ok.injEq, Prod.mk.injEq] at h
    refine ⟨[], [], [], fun st2 => ?_⟩
    simp only [cpaChildren, applyUpds_nil, List.append_nil, h.1]
  | cons c rest ih =>
    intro ext stA ext' stA' h
    rcases cpaChildren_cons_ok_elim h with ⟨r, e2, ext1, hrecEq, hext, hmerge, hrest⟩
    rcases hrec c _ stA r.1 r.2 (by rw [hrecEq]) with ⟨Δ1m, Δ1s, Δ1l, hrec2⟩
    rcases ih ext1 r.2 ext' stA' hrest with ⟨Δ2m, Δ2s, Δ2l, hih⟩
    refine ⟨Δ1m ++ Δ2m, Δ1s ++ Δ2s, Δ1l ++ Δ2l, fun st2 => ?_⟩
    simp only [cpaChildren]
    rw [hrec2 st2]
    simp only [except_bind_ok]
    rw [hext]
    simp only [except_bind_ok]
    rw [hmerge]
    simp only [except_bind_ok]
    rw [hih ⟨applyUpds Δ1m st2.models, applyUpds Δ1s st2.tableSizes, st2.log ++ Δ1l⟩]
    simp only [applyUpds_append, List.append_assoc]

theorem cpa_G (md : Metadata) (mc : ModelClass) (tables : List (String × DF)) :
    ∀ (fuel : Nat) (T : String) (fk : Option String) (st1 : MState) (e : DF)
      (st1' : MState), cpa md mc fuel T tables fk st1 = .ok (e, st1') →
      ∃ Δm Δs Δl, ∀ st2 : MState,
        cpa md mc fuel T tables fk st2 =
          .ok (e, ⟨applyUpds Δm st2.models, applyUpds Δs st2.tableSizes,
                   st2.log ++ Δl⟩) := by
  intro fuel
  induction fuel with
  | zero =>
    intro T fk st1 e st1' h
    exact absurd h (by simp [cpa_zero])
  | succ n ih =>
    intro T fk st1 e st1' h
    cases hpk : md.primaryKey T with
    | none =>
      rcases cpa_ok_pk_none hpk h with ⟨table, hres, hst, hfk⟩
      refine ⟨[(T, md.transform T table)], [(T, table.nRows)], [T], fun st2 => ?_⟩
      simp only [cpa]
      rw [hres]
      simp only [except_bind_ok]
      rw [hpk]
      simp only [except_bind_ok]
      cases fk with
      | none =>
        rw [hfk]
        rfl
      | some fkc =>
        rcases hfk with ⟨fkCol, hfkcol, hexteq⟩
        simp only []
        rw [hfkcol]
        simp only [toExcept, except_bind_ok]
        rw [hexteq]
        rfl
    | some pk =>
      rcases cpa_ok_pk_some hpk h with
        ⟨table, pkCol, exti, r1, r2, hres, hpkcol, hsiv, hch, hst, hfk⟩
      rcases cpaChildren_G _ md mc T
        (fun c fk2 stA d stB hr => ih c fk2 stA d stB hr)
        (md.children T) exti _ r1 r2 hch with ⟨Δcm, Δcs, Δcl, hchAll⟩
      refine ⟨Δcm ++ [(T, r1)], (T, table.nRows) :: Δcs, Δcl ++ [T], fun st2 => ?_⟩
      simp only [cpa]
      rw [hres]
      simp only [except_bind_ok]
      rw [hpk]
      simp only []
      rw [hpkcol]
      simp only [toExcept, except_bind_ok]
      rw [hsiv]
      simp only [except_bind_ok]
      rw [hchAll { st2 with tableSizes := dictSet st2.tableSizes T table.nRows }]
      simp only [except_bind_ok]
      cases fk with
      | none =>
        rw [hfk]
        simp only [applyUpds_append, applyUpds_cons, applyUpds_nil, List.append_assoc]
      | some fkc =>
        rcases hfk with ⟨fkCol, hfkcol, hexteq⟩
        simp only []
        rw [hfkcol]
        simp only [toExcept, except_bind_ok]
        rw [hexteq]
        simp only [applyUpds_append, applyUpds_cons, applyUpds_nil, List.append_assoc]

/-- C6: `cpa` is deterministic and sequentially idempotent: a second call
with the same arguments, run from the state the first call produced, returns
the identical extended frame and leaves the `models` and `table_sizes`
registries with identical contents (every write it repeats stores the value
already present).  The `tables` argument itself is pure input: the embedding
threads it unchanged, mirroring the source, which never writes to it. -/
theorem cpa_c6_idempotent {md : Metadata} {mc : ModelClass} {fuel : Nat} {T : String}
    {tables : List (String × DF)} {fk : Option String} {st : MState} {ext : DF}
    {st' : MState}
    (hok : cpa md mc fuel T tables fk st = .ok (ext, st')) :
    ∃ st2, cpa md mc fuel T tables fk st' = .ok (ext, st2) ∧
      (∀ k, dictGet st2.models k = dictGet st'.models k) ∧
      (∀ k, dictGet st2.tableSizes k = dictGet st'.tableSizes k) := by
  rcases cpa_G md mc tables fuel T fk st ext st' hok with ⟨Δm, Δs, Δl, hall⟩
  have hst' : st' = ⟨applyUpds Δm st.models, applyUpds Δs st.tableSizes,
      st.log ++ Δl⟩ := by
    have h1 := hall st
    rw [hok] at h1
    simp only [Except.ok.injEq, Prod.mk.injEq] at h1
    exact h1.2
  refine ⟨⟨applyUpds Δm st'.models, applyUpds Δs st'.tableSizes, st'.log ++ Δl⟩,
    hall st', ?_, ?_⟩
  · intro k
    show dictGet (applyUpds Δm st'.models) k = dictGet st'.models k
    rw [hst']
    exact dictGet_applyUpds_idem Δm st.models k
  · intro k
    show dictGet (applyUpds Δs st'.tableSizes) k = dictGet st'.tableSizes k
    rw [hst']
    exact dictGet_applyUpds_idem Δs st.tableSizes k

end SDV

namespace SDV

/-! ### A concrete schema and dataset

The three-level scenario of the spec: `customers(id) <- orders(id,
customer_id) <- items(id, order_id)`; customer 1 has two orders (with three
and one items), customer 2 has none. -/

def exCustomers : DF := ⟨none, [some 0, some 1], [("id", [some 1, some 2])]⟩

def exOrders : DF :=
  ⟨none, [some 0, some 1],
   [("id", [some 10, some 11]), ("customer_id", [some 1, some 1])]⟩

def exItems : DF :=
  ⟨none, [some 0, some 1, some 2, some 3],
   [("id", [some 100, some 101, some 102, some 103]),
    ("order_id", [some 10, some 10, some 10, some 11])]⟩

def exTables : List (String × DF) :=
  [("customers", exCustomers), ("orders", exOrders), ("items", exItems)]

def exMd : Metadata where
  tables := ["customers", "orders", "items"]
  parents := fun t =>
    if t = "orders" then ["customers"] else if t = "items" then ["orders"] else []
  children := fun t =>
    if t = "customers" then ["orders"] else if t = "orders" then ["items"] else []
  primaryKey := fun t =>
    if t = "customers" ∨ t = "orders" ∨ t = "items" then some "id" else none
  foreignKey := fun p c =>
    if p = "customers" ∧ c = "orders" then "customer_id"
    else if p = "orders" ∧ c = "items" then "order_id" else ""
  loadTable := fun _ => default
  transform := fun _ t => t.dropCol "id"

def exMc : ModelClass := ⟨fun df => [("nval", Int.ofNat df.cols.length)]⟩

def exMc9 : ModelClass := ⟨fun _ => [("child_rows", 999)]⟩

def okDF (r : Except Err (DF × MState)) : DF :=
  match r with
  | .ok p => p.1
  | .error _ => default

def okSt (r : Except Err (DF × MState)) : MState :=
  match r with
  | .ok p => p.2
  | .error _ => default

def okD (r : Except Err DF) : DF :=
  match r with
  | .ok d => d
  | .error _ => default

def okS (r : Except Err MState) : MState :=
  match r with
  | .ok s => s
  | .error _ => default

def exRunCustomers : Except Err (DF × MState) :=
  cpa exMd exMc 4 "customers" exTables none st0

def exRunOrders : Except Err (DF × MState) :=
  cpa exMd exMc 4 "orders" exTables (some "customer_id") st0

def exExtOrders : Except Err DF :=
  getExtension exMd exMc "orders" exOrders "customer_id"

def exExt9 : Except Err DF :=
  getExtension exMd exMc9 "orders" exOrders "customer_id"

def exRunDB : Except Err MState := modelDatabase exMd exMc 4 exTables st0

def exW3 : DF := ⟨some "id", [some 1, some 2], []⟩

theorem exMd_wf : ∀ u, exMd.children u ≠ [] → exMd.primaryKey u ≠ none := by
  intro u hch
  show (if u = "customers" ∨ u = "orders" ∨ u = "items" then some "id" else none) ≠ none
  have hch2 : (if u = "customers" then ["orders"]
      else if u = "orders" then ["items"] else []) ≠ [] := hch
  split_ifs at hch2 with h1 h2
  · simp [h1]
  · simp [h2]
  · exact absurd rfl hch2

end SDV

namespace SDV

instance (df : DF) : Decidable df.WF :=
  inferInstanceAs (Decidable (∀ p ∈ df.cols, p.2.length = df.index.length))

/-- Witness for C1 at the concrete scenario. -/
theorem cpa_c1_primary_key_shape_witness :
    resolveTable exMd exTables "customers" = .ok exCustomers ∧
    exMd.primaryKey "customers" = some "id" ∧
    (okDF exRunCustomers).nRows = exCustomers.nRows ∧
    "id" ∈ (okDF exRunCustomers).colNames ∧
    "__orders__child_rows" ∈ (okDF exRunCustomers).colNames := by
  have hok : cpa exMd exMc 4 "customers" exTables none st0 =
      .ok (okDF exRunCustomers, okSt exRunCustomers) := rfl
  have h := cpa_c1_primary_key_shape hok
    (show resolveTable exMd exTables "customers" = .ok exCustomers from rfl)
    (by decide) rfl
  refine ⟨rfl, rfl, h.1, h.2.1, ?_⟩
  rcases h.2.2 "orders" (by decide) with ⟨n, ct, e, stA, stB, _, _, hcr, _⟩
  exact hcr

/-- Witness for C2 at the concrete scenario. -/
theorem getExtension_c2_partition_witness :
    exOrders.getCol "customer_id" = some [some 1, some 1] ∧
    (okD exExtOrders).index = [some 1] ∧
    (okD exExtOrders).index.Nodup ∧
    (okD exExtOrders).nRows = 1 := by
  have hok : getExtension exMd exMc "orders" exOrders "customer_id" =
      .ok (okD exExtOrders) := rfl
  have h := getExtension_c2_partition hok
    (show exOrders.getCol "customer_id" = some [some 1, some 1] from rfl) (by decide)
  refine ⟨rfl, ?_, h.2.1, ?_⟩
  · rw [h.1]
    decide
  · rw [h.2.2.1]
    decide

/-- Witness for C3 at the concrete scenario: customer 2 has no orders. -/
theorem mergeChildStep_c3_zero_children_witness :
    (okD (mergeChildStep "orders" exW3 (okD exExtOrders))).cellPos 1
        "__orders__child_rows" = some (some 0) ∧
    (okD (mergeChildStep "orders" exW3 (okD exExtOrders))).cellPos 1
        "__orders__nval" = some none := by
  have hext : getExtension exMd exMc "orders" exOrders "customer_id" =
      .ok (okD exExtOrders) := rfl
  have hmerge : mergeChildStep "orders" exW3 (okD exExtOrders) =
      .ok (okD (mergeChildStep "orders" exW3 (okD exExtOrders))) := rfl
  have h := mergeChildStep_c3_zero_children (p := 1) hext
    (show exOrders.getCol "customer_id" = some [some 1, some 1] from rfl)
    (by decide) hmerge (by decide) (by decide) (by decide)
  exact ⟨h.1, h.2 "__orders__nval" (by decide) (by decide)⟩

/-- Witness for C4 at the concrete scenario. -/
theorem cpa_c4_postorder_witness :
    ∃ Δ, (okSt exRunCustomers).log = st0.log ++ (Δ ++ ["customers"]) ∧
      (∀ c ∈ exMd.children "customers", c ∈ Δ) ∧
      ChildrenBefore exMd (Δ ++ ["customers"]) := by
  have hok : cpa exMd exMc 4 "customers" exTables none st0 =
      .ok (okDF exRunCustomers, okSt exRunCustomers) := rfl
  exact cpa_c4_postorder exMd_wf hok

/-- Witness for C5 at the concrete scenario. -/
theorem modelDatabase_c5_roots_witness :
    (modelDatabase exMd exMc 4 exTables st0 =
      (exMd.tables.filter (fun t => (exMd.parents t).isEmpty)).foldlM
        (fun s t => (cpa exMd exMc 4 t exTables none s).map Prod.snd) st0) ∧
    ((okS exRunDB).models.map Prod.fst).Nodup ∧
    (dictGet (okS exRunDB).models "orders").isSome := by
  have hok : modelDatabase exMd exMc 4 exTables st0 = .ok (okS exRunDB) := rfl
  have h := modelDatabase_c5_roots exMd_wf hok
  refine ⟨h.1, h.2.2, ?_⟩
  exact (h.2.1 "orders").mpr ⟨"customers", by decide, by decide, by decide⟩

/-- Witness for C6 at the concrete scenario. -/
theorem cpa_c6_idempotent_witness :
    ∃ st2, cpa exMd exMc 4 "customers" exTables none (okSt exRunCustomers) =
        .ok (okDF exRunCustomers, st2) ∧
      (∀ k, dictGet st2.models k = dictGet (okSt exRunCustomers).models k) ∧
      (∀ k, dictGet st2.tableSizes k = dictGet (okSt exRunCustomers).tableSizes k) := by
  exact cpa_c6_idempotent (show cpa exMd exMc 4 "customers" exTables none st0 =
    .ok (okDF exRunCustomers, okSt exRunCustomers) from rfl)

/-- Witness for C7 at the concrete scenario. -/
theorem cpa_c7_table_sizes_witness :
    resolveTable exMd exTables "customers" = .ok exCustomers ∧
    dictGet (okSt exRunCustomers).tableSizes "customers" = some 2 := by
  have hok : cpa exMd exMc 4 "customers" exTables none st0 =
      .ok (okDF exRunCustomers, okSt exRunCustomers) := rfl
  have h := cpa_c7_table_sizes hok
    (show resolveTable exMd exTables "customers" = .ok exCustomers from rfl)
  exact ⟨rfl, h⟩

/-- Witness for C8 at the concrete scenario. -/
theorem cpa_c8_foreign_key_verbatim_witness :
    (okDF exRunOrders).getCol "customer_id" = some [some 1, some 1] := by
  have hok : cpa exMd exMc 4 "orders" exTables (some "customer_id") st0 =
      .ok (okDF exRunOrders, okSt exRunOrders) := rfl
  have h := cpa_c8_foreign_key_verbatim hok
    (show resolveTable exMd exTables "orders" = .ok exOrders from rfl)
    (by decide) (by decide) (fun _ _ => rfl)
  rcases h with ⟨fkVals, h1, h2⟩
  have h4 : fkVals = [some 1, some 1] := by
    have h5 : some fkVals = some [some 1, some 1] := h1.symm.trans (by rfl)
    injection h5
  rw [h4] at h2
  exact h2

/-- Witness for C9 at the concrete scenario: the model emits a parameter
named `child_rows` with value 999, and the stored cell is the count 2. -/
theorem getExtension_c9_child_rows_overwrite_witness :
    exMc9.getParams exCustomers = [("child_rows", 999)] ∧
    (999 : Int) ≠ 2 ∧
    (okD exExt9).cellAt (some 1) "__orders__child_rows" = some (some 2) := by
  have hok : getExtension exMd exMc9 "orders" exOrders "customer_id" =
      .ok (okD exExt9) := rfl
  have h := getExtension_c9_child_rows_overwrite hok
    (show exOrders.getCol "customer_id" = some [some 1, some 1] from rfl)
    (some 1) (by decide)
  exact ⟨rfl, by decide, h⟩

/-- Witness for C10 at the concrete scenario. -/
theorem cpa_c10_tables_key_error_witness :
    cpa exMd exMc 4 "missing" exTables none st0 = .error (.keyError "missing") ∧
    cpa { exMd with loadTable := fun _ => exCustomers } exMc 3 "customers" exTables
        none st0 = cpa exMd exMc 3 "customers" exTables none st0 := by
  exact @cpa_c10_tables_key_error exMd exMc 3 "missing" exTables none st0
    (fun _ => exCustomers) 3 "customers" none st0 (by decide) rfl

end SDV
